import Mathlib

/-!
# ssz-cli: fixture discovery and round-trip verification

A shallow embedding of `main.go`: the type registry `SSZObjectFromName`, the
fixture discoverer `findTestCases`, the fixture loader `TestCase.MarshaledBytes`
and the driver loop of `main`.

Library code the program calls is not part of the repository and is embedded as
follows.

* Go `regexp`: a backtracking matcher over the fragment the fixture pattern
  uses, with the documented leftmost-first choice (the earliest start, and among
  the matches there the one a backtracking search finds first).  Strings are
  sequences of Unicode characters; paths that are not valid UTF-8 are outside
  the model.
* `filepath.WalkDir`: the sequence of callback invocations it makes, and the
  rule that the first non-nil error the callback returns ends the walk and is
  returned.
* `path.Join`, `os.Open`, `bytes.Buffer.ReadFrom`, `snappy.Decode` and the
  generated SSZ codecs: fields of the environment `Env`.  `UnmarshalSSZ` updates
  the object; `MarshalSSZ` and `HashTreeRoot` read it.
* Logging is left out; the lines written to standard output are the roots
  printed, and `log.Fatal` is the end of the run with a `Fatal` value.
-/

namespace SszCli

/-! ## Go `regexp`: the fragment the fixture pattern uses -/

/-- Single-character classes of the pattern. -/
inductive Cls where
  /-- A literal character. -/
  | lit (c : Char)
  /-- The dot: every character except the line feed (flag `s` is off). -/
  | any
  /-- The Perl class `\d`: an ASCII decimal digit. -/
  | digit
  deriving DecidableEq

/-- Does the character belong to the class? -/
def Cls.test : Cls → Char → Bool
  | .lit c, x => x == c
  | .any, x => x != '\n'
  | .digit, x => x.isDigit

/-- Regular expressions: literal strings, classes, greedy `*` and `+` over a
class, concatenation, alternation and numbered capture groups. -/
inductive Re where
  /-- A literal string. -/
  | str (l : List Char)
  /-- One character of a class. -/
  | cls (c : Cls)
  /-- Greedy repetition, zero or more. -/
  | star (c : Cls)
  /-- Greedy repetition, one or more. -/
  | plus (c : Cls)
  /-- Concatenation. -/
  | seq (a b : Re)
  /-- Alternation, the left branch preferred. -/
  | alt (a b : Re)
  /-- Capture group number `i`. -/
  | group (i : Nat) (a : Re)

/-- Captured substrings, indexed by group number. -/
abbrev Caps := List (List Char)

/-- Literal prefix: continue with what follows the literal, or fail. -/
def litRun {α : Type} (k : List Char → Option α) : List Char → List Char → Option α
  | [], s => k s
  | _ :: _, [] => none
  | c :: l, x :: s => if x = c then litRun k l s else none

/-- Greedy repetition of a class: the longest run is tried first, then shorter
ones, the continuation deciding. -/
def starRun {α : Type} (c : Cls) (k : List Char → Option α) : List Char → Option α
  | [] => k []
  | x :: xs =>
    if c.test x then
      match starRun c k xs with
      | some r => some r
      | none => k (x :: xs)
    else k (x :: xs)

/-- Backtracking match of `re` at the head of the input.  The continuation
receives the remaining input and the captures; the first success in priority
order is the result. -/
def Re.run {α : Type} : Re → List Char → Caps → (List Char → Caps → Option α) → Option α
  | .str l, s, cs, k => litRun (fun rest => k rest cs) l s
  | .cls c, s, cs, k =>
    match s with
    | [] => none
    | x :: xs => if c.test x then k xs cs else none
  | .star c, s, cs, k => starRun c (fun rest => k rest cs) s
  | .plus c, s, cs, k =>
    match s with
    | [] => none
    | x :: xs => if c.test x then starRun c (fun rest => k rest cs) xs else none
  | .seq a b, s, cs, k => a.run s cs (fun rest cs1 => b.run rest cs1 k)
  | .alt a b, s, cs, k =>
    match a.run s cs k with
    | some r => some r
    | none => b.run s cs k
  | .group i a, s, cs, k =>
    a.run s cs (fun rest cs1 => k rest (cs1.set i (s.take (s.length - rest.length))))

/-- Number of capture groups (`Regexp.NumSubexp`). -/
def Re.numSubexp : Re → Nat
  | .str _ => 0
  | .cls _ => 0
  | .star _ => 0
  | .plus _ => 0
  | .seq a b => a.numSubexp + b.numSubexp
  | .alt a b => a.numSubexp + b.numSubexp
  | .group _ a => a.numSubexp + 1

/-- A match that starts at the head of `s`: group 0 is the matched text. -/
def Re.matchAt (re : Re) (s : List Char) : Option Caps :=
  re.run s (List.replicate (re.numSubexp + 1) [])
    (fun rest cs => some (cs.set 0 (s.take (s.length - rest.length))))

/-- Unanchored search: the leftmost start position that has a match. -/
def Re.search (re : Re) : List Char → Option Caps
  | [] => re.matchAt []
  | x :: xs =>
    match re.matchAt (x :: xs) with
    | some cs => some cs
    | none => re.search xs

/-- Go `Regexp.FindStringSubmatch`: the text of the leftmost match and of its
groups, or the empty (nil) slice when there is no match. -/
def Re.FindStringSubmatch (re : Re) (s : String) : List String :=
  match re.search s.data with
  | some cs => cs.map String.mk
  | none => []

/-- The pattern `re` compiled in `findTestCases`:
`.*\/tests\/(mainnet|minimal)\/(altair|merge|phase0)\/ssz_static\/(.*)\/ssz_random\/(case_\d+)`. -/
def re : Re :=
  .seq (.star .any) <|
  .seq (.str "/tests/".data) <|
  .seq (.group 1 (.alt (.str "mainnet".data) (.str "minimal".data))) <|
  .seq (.str "/".data) <|
  .seq (.group 2 (.alt (.str "altair".data) (.alt (.str "merge".data) (.str "phase0".data)))) <|
  .seq (.str "/ssz_static/".data) <|
  .seq (.group 3 (.star .any)) <|
  .seq (.str "/ssz_random/".data) <|
  .group 4 (.seq (.str "case_".data) (.plus .digit))


/-! ## The type registry -/

/-- The message types of `ethpb` the registry can construct; a value of this
type stands for the fresh empty object `&ethpb.T{}`. -/
inductive SSZType where
  | ExecutionPayload
  | ExecutionPayloadHeader
  | Attestation
  | AttestationData
  | AttesterSlashing
  | AggregateAttestationAndProof
  | BeaconBlockMerge
  | BeaconBlockBodyMerge
  | BeaconBlockHeader
  | BeaconStateMerge
  | Checkpoint
  | Deposit
  | DepositMessage
  | Deposit_Data
  | Eth1Data
  | Fork
  | ForkData
  | HistoricalBatch
  | IndexedAttestation
  | PendingAttestation
  | ProposerSlashing
  | SignedAggregateAttestationAndProof
  | SignedBeaconBlockMerge
  | SignedBeaconBlockHeader
  | SignedVoluntaryExit
  | SigningData
  | Validator
  | VoluntaryExit
  | SyncCommitteeMessage
  | SyncCommitteeContribution
  | ContributionAndProof
  | SignedContributionAndProof
  | SyncAggregate
  | SyncAggregatorSelectionData
  | SyncCommittee
  deriving DecidableEq

/-- Source `SSZObjectFromName`: the switch over the type name. -/
def SSZObjectFromName (name : String) : Except String SSZType :=
  match name with
  | "ExecutionPayload" => .ok .ExecutionPayload
  | "ExecutionPayloadHeader" => .ok .ExecutionPayloadHeader
  | "Attestation" => .ok .Attestation
  | "AttestationData" => .ok .AttestationData
  | "AttesterSlashing" => .ok .AttesterSlashing
  | "AggregateAndProof" => .ok .AggregateAttestationAndProof
  | "BeaconBlock" => .ok .BeaconBlockMerge
  | "BeaconBlockBody" => .ok .BeaconBlockBodyMerge
  | "BeaconBlockHeader" => .ok .BeaconBlockHeader
  | "BeaconState" => .ok .BeaconStateMerge
  | "Checkpoint" => .ok .Checkpoint
  | "Deposit" => .ok .Deposit
  | "DepositMessage" => .ok .DepositMessage
  | "DepositData" => .ok .Deposit_Data
  | "Eth1Data" => .ok .Eth1Data
  | "Fork" => .ok .Fork
  | "ForkData" => .ok .ForkData
  | "HistoricalBatch" => .ok .HistoricalBatch
  | "IndexedAttestation" => .ok .IndexedAttestation
  | "PendingAttestation" => .ok .PendingAttestation
  | "ProposerSlashing" => .ok .ProposerSlashing
  | "SignedAggregateAndProof" => .ok .SignedAggregateAttestationAndProof
  | "SignedBeaconBlock" => .ok .SignedBeaconBlockMerge
  | "SignedBeaconBlockHeader" => .ok .SignedBeaconBlockHeader
  | "SignedVoluntaryExit" => .ok .SignedVoluntaryExit
  | "SigningData" => .ok .SigningData
  | "Validator" => .ok .Validator
  | "VoluntaryExit" => .ok .VoluntaryExit
  | "SyncCommitteeMessage" => .ok .SyncCommitteeMessage
  | "SyncCommitteeContribution" => .ok .SyncCommitteeContribution
  | "ContributionAndProof" => .ok .ContributionAndProof
  | "SignedContributionAndProof" => .ok .SignedContributionAndProof
  | "SyncAggregate" => .ok .SyncAggregate
  | "SyncAggregatorSelectionData" => .ok .SyncAggregatorSelectionData
  | "SyncCommittee" => .ok .SyncCommittee
  | _ => .error "type not found"

/-- The case labels of the switch in `SSZObjectFromName`, in source order. -/
def registryNames : List String :=
  ["ExecutionPayload",
   "ExecutionPayloadHeader",
   "Attestation",
   "AttestationData",
   "AttesterSlashing",
   "AggregateAndProof",
   "BeaconBlock",
   "BeaconBlockBody",
   "BeaconBlockHeader",
   "BeaconState",
   "Checkpoint",
   "Deposit",
   "DepositMessage",
   "DepositData",
   "Eth1Data",
   "Fork",
   "ForkData",
   "HistoricalBatch",
   "IndexedAttestation",
   "PendingAttestation",
   "ProposerSlashing",
   "SignedAggregateAndProof",
   "SignedBeaconBlock",
   "SignedBeaconBlockHeader",
   "SignedVoluntaryExit",
   "SigningData",
   "Validator",
   "VoluntaryExit",
   "SyncCommitteeMessage",
   "SyncCommitteeContribution",
   "ContributionAndProof",
   "SignedContributionAndProof",
   "SyncAggregate",
   "SyncAggregatorSelectionData",
   "SyncCommittee"]

/-! ## Test cases and the walk -/

/-- Source `TestCase`. -/
structure TestCase where
  path : String
  config : String
  phase : String
  typeName : String
  caseId : String
  deriving DecidableEq

/-- One invocation of the callback by `filepath.WalkDir`. -/
inductive WalkCall where
  /-- The call `fn(path, d, nil)`; `isDir` is `d.IsDir()`. -/
  | entry (path : String) (isDir : Bool)
  /-- The call `fn(path, d, err)` with a non-nil `err` (`d` may be nil). -/
  | failed (path : String) (err : String)
  deriving DecidableEq

/-- Bytes. -/
abbrev Bytes := List (Fin 256)

/-- An opened file as `bytes.Buffer.ReadFrom` sees it: the bytes delivered
before the end of file or before a read error, and that error if any. -/
structure FileHandle where
  data : Bytes
  readErr : Option String
  deriving DecidableEq

/-- The hash tree root, `[32]byte`. -/
abbrev Root := { l : Bytes // l.length = 32 }

/-- The libraries and the file system the program runs against.  `Val` is the
state of an SSZ object. -/
structure Env (Val : Type) where
  /-- The callback invocations `filepath.WalkDir(root, fn)` makes, in order,
  for a callback that returns nil every time. -/
  walk : String → List WalkCall
  /-- Library `path.Join`. -/
  pathJoin : String → String → String
  /-- Library `os.Open`. -/
  osOpen : String → Except String FileHandle
  /-- Library `snappy.Decode(nil, src)`. -/
  snappyDecode : Bytes → Except String Bytes
  /-- The empty object `&ethpb.T{}`. -/
  newObject : SSZType → Val
  /-- Method `UnmarshalSSZ`: the object after the call and the error. -/
  UnmarshalSSZ : Val → Bytes → Val × Option String
  /-- Method `MarshalSSZ`. -/
  MarshalSSZ : Val → Except String Bytes
  /-- Method `HashTreeRoot`. -/
  HashTreeRoot : Val → Except String Root

/-- The closure `testCaseFromPath` of `findTestCases`: the list `tcs` after the
call and the error the callback returns. -/
def testCaseFromPath (want : List String) (tcs : List TestCase) :
    WalkCall → List TestCase × Option String
  | .failed _ _ => (tcs, none)
  | .entry path isDir =>
    if !isDir then (tcs, none)
    else
      let parts := re.FindStringSubmatch path
      if parts.length != 5 then (tcs, none)
      else
        let tc : TestCase :=
          { path := path
            config := parts.getD 1 ""
            phase := parts.getD 2 ""
            typeName := parts.getD 3 ""
            caseId := parts.getD 4 "" }
        if tc.config == "" || tc.phase == "" || tc.typeName == "" || tc.caseId == "" then
          (tcs, none)
        else if !want.contains tc.typeName then (tcs, none)
        else (tcs ++ [tc], none)

/-- Library `filepath.WalkDir` over the calls it makes: the callback runs on
each in turn and the first non-nil error it returns ends the walk and is the
result (the callback of this program never returns `SkipDir`). -/
def WalkDir {σ : Type} (fn : σ → WalkCall → σ × Option String) : σ → List WalkCall → σ × Option String
  | st, [] => (st, none)
  | st, c :: cs =>
    match fn st c with
    | (st1, none) => WalkDir fn st1 cs
    | (st1, some e) => (st1, some e)

/-- Source `findTestCases`. -/
def findTestCases {Val : Type} (env : Env Val) (path : String) (want : List String) :
    List TestCase × Option String :=
  WalkDir (testCaseFromPath want) [] (env.walk path)

/-- Source `TestCase.MarshaledBytes`. -/
def TestCase.MarshaledBytes {Val : Type} (env : Env Val) (tc : TestCase) : Except String Bytes :=
  match env.osOpen (env.pathJoin tc.path "serialized.ssz_snappy") with
  | .error err => .error err
  | .ok fh =>
    let buf := fh.data
    let _err := fh.readErr
    env.snappyDecode buf

/-! ## The driver -/

/-- The `log.Fatal` exits of `main`. -/
inductive Fatal where
  /-- Line 35 and line 45: "Couldn't find type for name". -/
  | typeNotFound (name : String)
  /-- Line 39: the error of `findTestCases`. -/
  | discovery (err : String)
  /-- Line 50: "Failed to get bytes for test case". -/
  | getBytes (path err : String)
  /-- Line 55: "Failed to unmarshal bytes for test case". -/
  | unmarshal (path err : String)
  /-- Line 59: "Failed to marshal bytes for test case". -/
  | marshal (path err : String)
  /-- Line 62: "Marshaled bytes do not equal fixture". -/
  | mismatch
  /-- Line 66: "Unable to compute HTR". -/
  | hashTreeRoot (err : String)
  deriving DecidableEq

/-- The body of the loop of `main` for one test case: the root printed, or the
fatal exit taken. -/
def verifyCase {Val : Type} (env : Env Val) (t : TestCase) : Except Fatal Root :=
  match SSZObjectFromName t.typeName with
  | .error _ => .error (.typeNotFound t.typeName)
  | .ok ty =>
    let v := env.newObject ty
    match t.MarshaledBytes env with
    | .error err => .error (.getBytes t.path err)
    | .ok b =>
      match env.UnmarshalSSZ v b with
      | (_, some err) => .error (.unmarshal t.path err)
      | (v1, none) =>
        match env.MarshalSSZ v1 with
        | .error err => .error (.marshal t.path err)
        | .ok bb =>
          if b != bb then .error .mismatch
          else
            match env.HashTreeRoot v1 with
            | .error err => .error (.hashTreeRoot err)
            | .ok htr => .ok htr

/-- The loop of `main` over the discovered cases: the roots printed, in order,
and the fatal exit that ended the run, if any. -/
def runCases {Val : Type} (env : Env Val) : List TestCase → List Root × Option Fatal
  | [] => ([], none)
  | t :: ts =>
    match verifyCase env t with
    | .error f => ([], some f)
    | .ok htr =>
      let r := runCases env ts
      (htr :: r.1, r.2)

/-- Source `main`, for the flag values `fixturePath` and `fixtureType`. -/
def main {Val : Type} (env : Env Val) (fixturePath fixtureType : String) :
    List Root × Option Fatal :=
  match SSZObjectFromName fixtureType with
  | .error _ => ([], some (.typeNotFound fixtureType))
  | .ok _ =>
    match findTestCases env fixturePath [fixtureType] with
    | (_, some err) => ([], some (.discovery err))
    | (tcs, none) => runCases env tcs

/-! ## Auxiliary definitions for the statements -/

/-- The test case the callback builds for one call, if it appends one. -/
def candidate (want : List String) (c : WalkCall) : Option TestCase :=
  ((testCaseFromPath want [] c).1).head?

/-- A root of zeros. -/
def zeroRoot : Root := ⟨List.replicate 32 0, by decide⟩

/-- A small environment for concrete runs.  The walk and the files are given;
`snappy.Decode` accepts the block `[0]`, the encoding of the empty string, and
rejects every other input; the codec keeps the bytes it decoded, re-encodes
them unchanged and hashes to `zeroRoot`. -/
def demoEnv (calls : List WalkCall) (files : String → Except String FileHandle) : Env Bytes where
  walk := fun _ => calls
  pathJoin := fun dir name => dir ++ "/" ++ name
  osOpen := files
  snappyDecode := fun src => if src = [0] then .ok [] else .error "snappy: corrupt input"
  newObject := fun _ => []
  UnmarshalSSZ := fun _ b => (b, none)
  MarshalSSZ := fun v => .ok v
  HashTreeRoot := fun _ => .ok zeroRoot

/-- The declarative reading of a pattern: `re.Matches m cs cs1` says that `re`
can match exactly the text `m`, turning the captures `cs` into `cs1`. -/
def Re.Matches : Re → List Char → Caps → Caps → Prop
  | .str l, m, cs, cs1 => m = l ∧ cs1 = cs
  | .cls c, m, cs, cs1 => (∃ x, m = [x] ∧ c.test x = true) ∧ cs1 = cs
  | .star c, m, cs, cs1 => (∀ x ∈ m, c.test x = true) ∧ cs1 = cs
  | .plus c, m, cs, cs1 => (m ≠ [] ∧ ∀ x ∈ m, c.test x = true) ∧ cs1 = cs
  | .seq a b, m, cs, cs1 =>
    ∃ m1 m2 cs2, m = m1 ++ m2 ∧ a.Matches m1 cs cs2 ∧ b.Matches m2 cs2 cs1
  | .alt a b, m, cs, cs1 => a.Matches m cs cs1 ∨ b.Matches m cs cs1
  | .group i a, m, cs, cs1 => ∃ cs2, a.Matches m cs cs2 ∧ cs1 = cs2.set i m

/-- The language of a pattern, captures forgotten. -/
def Re.Lang : Re → List Char → Prop
  | .str l, m => m = l
  | .cls c, m => ∃ x, m = [x] ∧ c.test x = true
  | .star c, m => ∀ x ∈ m, c.test x = true
  | .plus c, m => m ≠ [] ∧ ∀ x ∈ m, c.test x = true
  | .seq a b, m => ∃ m1 m2, m = m1 ++ m2 ∧ a.Lang m1 ∧ b.Lang m2
  | .alt a b, m => a.Lang m ∨ b.Lang m
  | .group _ a, m => a.Lang m

/-- The text `m` is an occurrence of the fixture layout with the tags `c`,
`ph`, `t` and `i`: some line-feed-free text, then
`/tests/c/ph/ssz_static/t/ssz_random/i`, where `c` and `ph` are among the
listed presets and phases and `i` is `case_` followed by decimal digits. -/
def FixtureShape (m c ph t i : List Char) : Prop :=
  ∃ pre ds : List Char,
    m = pre ++ "/tests/".data ++ c ++ "/".data ++ ph ++ "/ssz_static/".data ++ t ++
      "/ssz_random/".data ++ i ∧
    i = "case_".data ++ ds ∧
    (c = "mainnet".data ∨ c = "minimal".data) ∧
    (ph = "altair".data ∨ ph = "merge".data ∨ ph = "phase0".data) ∧
    (∀ x ∈ pre, x ≠ '\n') ∧ (∀ x ∈ t, x ≠ '\n') ∧
    ds ≠ [] ∧ ∀ x ∈ ds, x.isDigit = true

/-- The path has exactly the fixture layout, nothing following the case
segment: `pre/tests/c/ph/ssz_static/t/ssz_random/case_ds` with `c` a listed
preset, `ph` a listed phase and `ds` one or more decimal digits. -/
def ExactLayout (p : String) : Prop :=
  ∃ pre c ph t ds : String,
    p = pre ++ "/tests/" ++ c ++ "/" ++ ph ++ "/ssz_static/" ++ t ++ "/ssz_random/case_" ++ ds ∧
    (c = "mainnet" ∨ c = "minimal") ∧
    (ph = "phase0" ∨ ph = "altair" ∨ ph = "merge") ∧
    ds ≠ "" ∧ ∀ x ∈ ds.data, x.isDigit = true

/-- A walk of `/r`: one well-formed case directory with its fixture file, a
directory nested inside it, and a sibling whose name continues after the
digits. -/
def inexactWalk : List WalkCall :=
  [.entry "/r" true,
   .entry "/r/tests" true,
   .entry "/r/tests/minimal" true,
   .entry "/r/tests/minimal/phase0" true,
   .entry "/r/tests/minimal/phase0/ssz_static" true,
   .entry "/r/tests/minimal/phase0/ssz_static/Fork" true,
   .entry "/r/tests/minimal/phase0/ssz_static/Fork/ssz_random" true,
   .entry "/r/tests/minimal/phase0/ssz_static/Fork/ssz_random/case_0" true,
   .entry "/r/tests/minimal/phase0/ssz_static/Fork/ssz_random/case_0/serialized.ssz_snappy" false,
   .entry "/r/tests/minimal/phase0/ssz_static/Fork/ssz_random/case_0/sub" true,
   .entry "/r/tests/minimal/phase0/ssz_static/Fork/ssz_random/case_1x" true]

/-- No file can be opened. -/
def noFiles : String → Except String FileHandle :=
  fun name => .error ("open " ++ name ++ ": no such file or directory")

/-- A walk of `/r` with one case directory of type `Checkpoint` and one of type
`Fork`. -/
def twoTypesWalk : List WalkCall :=
  [.entry "/r" true,
   .entry "/r/tests" true,
   .entry "/r/tests/mainnet" true,
   .entry "/r/tests/mainnet/altair" true,
   .entry "/r/tests/mainnet/altair/ssz_static" true,
   .entry "/r/tests/mainnet/altair/ssz_static/Checkpoint" true,
   .entry "/r/tests/mainnet/altair/ssz_static/Checkpoint/ssz_random" true,
   .entry "/r/tests/mainnet/altair/ssz_static/Checkpoint/ssz_random/case_7" true,
   .entry "/r/tests/mainnet/altair/ssz_static/Checkpoint/ssz_random/case_7/serialized.ssz_snappy"
     false,
   .entry "/r/tests/mainnet/altair/ssz_static/Fork" true,
   .entry "/r/tests/mainnet/altair/ssz_static/Fork/ssz_random" true,
   .entry "/r/tests/mainnet/altair/ssz_static/Fork/ssz_random/case_3" true,
   .entry "/r/tests/mainnet/altair/ssz_static/Fork/ssz_random/case_3/serialized.ssz_snappy" false]

/-- The test case of the `Fork` directory of `twoTypesWalk`. -/
def forkCase : TestCase :=
  ⟨"/r/tests/mainnet/altair/ssz_static/Fork/ssz_random/case_3", "mainnet", "altair", "Fork",
    "case_3"⟩

/-- Files of which every one opens and delivers the block `[0]`. -/
def emptyFixtures : String → Except String FileHandle :=
  fun _ => .ok ⟨[0], none⟩

/-- The fixture opens, delivers the byte `0` and then the read fails. -/
def failingRead : String → Except String FileHandle :=
  fun name => .ok ⟨[0], some ("read " ++ name ++ ": input/output error")⟩

/-- The match of `re` at the head of `s`, as the remaining input and the
captures of the groups. -/
def Re.exec (re : Re) (s : List Char) : Option (List Char × Caps) :=
  re.run s (List.replicate (re.numSubexp + 1) []) (fun rest cs => some (rest, cs))

/-- The calls of a walk from the root `r` over a tree that holds one case
directory, `tests/minimal/phase0/ssz_static/Fork/ssz_random/case_0`, with its
fixture file.  `filepath.WalkDir` reports the root as it was given and every
entry below it as `filepath.Join(parent, name)`; `base` is what those joined
paths carry in front of `tests`: the cleaned root and a separator, or nothing
when the root is the relative `.`. -/
def singleCaseWalk (r base : String) : List WalkCall :=
  [.entry r true,
   .entry (base ++ "tests") true,
   .entry (base ++ "tests/minimal") true,
   .entry (base ++ "tests/minimal/phase0") true,
   .entry (base ++ "tests/minimal/phase0/ssz_static") true,
   .entry (base ++ "tests/minimal/phase0/ssz_static/Fork") true,
   .entry (base ++ "tests/minimal/phase0/ssz_static/Fork/ssz_random") true,
   .entry (base ++ "tests/minimal/phase0/ssz_static/Fork/ssz_random/case_0") true,
   .entry (base ++ "tests/minimal/phase0/ssz_static/Fork/ssz_random/case_0/serialized.ssz_snappy")
     false]

/-! ## Theorems -/

/-! ### The matcher against the declarative reading -/

theorem litRun_eq_some {α : Type} (k : List Char → Option α) (l s : List Char) (r : α) :
    litRun k l s = some r ↔ ∃ rest, s = l ++ rest ∧ k rest = some r := by
  induction l generalizing s with
  | nil => simp [litRun]
  | cons c l ih =>
    cases s with
    | nil => simp [litRun]
    | cons x s =>
      simp only [litRun, List.cons_append, List.cons.injEq]
      by_cases hx : x = c
      · simp [hx, ih]
      · simp [hx]

theorem litRun_append {α : Type} (k : List Char → Option α) (l rest : List Char) :
    litRun k l (l ++ rest) = k rest := by
  induction l with
  | nil => simp [litRun]
  | cons c l ih => simp [litRun, ih]

theorem starRun_sound {α : Type} (c : Cls) (k : List Char → Option α) (s : List Char) (r : α)
    (h : starRun c k s = some r) :
    ∃ m rest, s = m ++ rest ∧ (∀ x ∈ m, c.test x = true) ∧ k rest = some r := by
  induction s with
  | nil => exact ⟨[], [], rfl, by simp, by simpa [starRun] using h⟩
  | cons x xs ih =>
    unfold starRun at h
    by_cases hx : c.test x = true
    · simp only [hx, if_true] at h
      cases hs : starRun c k xs with
      | some r1 =>
        rw [hs] at h
        simp only [Option.some.injEq] at h
        subst h
        obtain ⟨m, rest, hm, hall, hk⟩ := ih hs
        refine ⟨x :: m, rest, by simp [hm], ?_, hk⟩
        intro y hy
        rcases List.mem_cons.1 hy with rfl | hy
        · exact hx
        · exact hall y hy
      | none =>
        rw [hs] at h
        exact ⟨[], x :: xs, rfl, by simp, h⟩
    · simp only [hx] at h
      exact ⟨[], x :: xs, rfl, by simp, by simpa using h⟩

theorem starRun_isSome {α : Type} (c : Cls) (k : List Char → Option α) (s : List Char)
    (h : (k s).isSome = true) : (starRun c k s).isSome = true := by
  cases s with
  | nil => simpa [starRun] using h
  | cons x xs =>
    unfold starRun
    split
    · split
      · rfl
      · exact h
    · exact h

theorem starRun_complete {α : Type} (c : Cls) (k : List Char → Option α) (m rest : List Char)
    (hall : ∀ x ∈ m, c.test x = true) (h : (k rest).isSome = true) :
    (starRun c k (m ++ rest)).isSome = true := by
  induction m with
  | nil => exact starRun_isSome c k rest h
  | cons x m ih =>
    have hx : c.test x = true := hall x (List.mem_cons_self _ _)
    have ih1 := ih (fun y hy => hall y (List.mem_cons_of_mem _ hy))
    simp only [List.cons_append]
    unfold starRun
    simp only [hx, if_true]
    split
    · rfl
    · rename_i hn
      rw [hn] at ih1
      cases ih1

/-- Greedy preference: a run of class characters in front of the input is
swallowed by the repetition when the match succeeds behind it. -/
theorem starRun_greedy {α : Type} (c : Cls) (k : List Char → Option α) (m s : List Char) (r : α)
    (hall : ∀ x ∈ m, c.test x = true) (h : starRun c k s = some r) :
    starRun c k (m ++ s) = some r := by
  induction m with
  | nil => exact h
  | cons x m ih =>
    have hx : c.test x = true := hall x (List.mem_cons_self _ _)
    have ih1 := ih (fun y hy => hall y (List.mem_cons_of_mem _ hy))
    simp only [List.cons_append]
    unfold starRun
    simp only [hx, if_true, ih1]

theorem Re.run_sound {α : Type} (re : Re) :
    ∀ (s : List Char) (cs : Caps) (k : List Char → Caps → Option α) (r : α),
      re.run s cs k = some r →
      ∃ m rest cs1, s = m ++ rest ∧ re.Matches m cs cs1 ∧ k rest cs1 = some r := by
  induction re with
  | str l =>
    intro s cs k r h
    obtain ⟨rest, hs, hk⟩ := (litRun_eq_some _ l s r).1 h
    exact ⟨l, rest, cs, hs, ⟨rfl, rfl⟩, hk⟩
  | cls c =>
    intro s cs k r h
    cases s with
    | nil => simp [Re.run] at h
    | cons x xs =>
      simp only [Re.run] at h
      by_cases hx : c.test x = true
      · simp only [hx, if_true] at h
        exact ⟨[x], xs, cs, rfl, ⟨⟨x, rfl, hx⟩, rfl⟩, h⟩
      · simp [hx] at h
  | star c =>
    intro s cs k r h
    obtain ⟨m, rest, hs, hall, hk⟩ := starRun_sound c _ s r h
    exact ⟨m, rest, cs, hs, ⟨hall, rfl⟩, hk⟩
  | plus c =>
    intro s cs k r h
    cases s with
    | nil => simp [Re.run] at h
    | cons x xs =>
      simp only [Re.run] at h
      by_cases hx : c.test x = true
      · simp only [hx, if_true] at h
        obtain ⟨m, rest, hs, hall, hk⟩ := starRun_sound c _ xs r h
        refine ⟨x :: m, rest, cs, by simp [hs], ⟨⟨by simp, ?_⟩, rfl⟩, hk⟩
        intro y hy
        rcases List.mem_cons.1 hy with rfl | hy
        · exact hx
        · exact hall y hy
      · simp [hx] at h
  | seq a b iha ihb =>
    intro s cs k r h
    simp only [Re.run] at h
    obtain ⟨m1, rest1, cs2, hs1, hm1, hk1⟩ := iha s cs _ r h
    obtain ⟨m2, rest2, cs3, hs2, hm2, hk2⟩ := ihb rest1 cs2 k r hk1
    exact ⟨m1 ++ m2, rest2, cs3, by simp [hs1, hs2], ⟨m1, m2, cs2, rfl, hm1, hm2⟩, hk2⟩
  | alt a b iha ihb =>
    intro s cs k r h
    simp only [Re.run] at h
    cases ha : a.run s cs k with
    | some r1 =>
      rw [ha] at h
      simp only [Option.some.injEq] at h
      subst h
      obtain ⟨m, rest, cs1, hs, hm, hk⟩ := iha s cs k r1 ha
      exact ⟨m, rest, cs1, hs, Or.inl hm, hk⟩
    | none =>
      rw [ha] at h
      obtain ⟨m, rest, cs1, hs, hm, hk⟩ := ihb s cs k r h
      exact ⟨m, rest, cs1, hs, Or.inr hm, hk⟩
  | group i a iha =>
    intro s cs k r h
    simp only [Re.run] at h
    obtain ⟨m, rest, cs2, hs, hm, hk⟩ := iha s cs _ r h
    refine ⟨m, rest, cs2.set i m, hs, ⟨cs2, hm, rfl⟩, ?_⟩
    have ht : s.take (s.length - rest.length) = m := by
      subst hs
      simp
    rw [ht] at hk
    exact hk

theorem Re.run_complete {α : Type} (re : Re) :
    ∀ (m rest : List Char) (cs : Caps) (k : List Char → Caps → Option α),
      re.Lang m → (∀ cs1, (k rest cs1).isSome = true) →
      (re.run (m ++ rest) cs k).isSome = true := by
  induction re with
  | str l =>
    intro m rest cs k hm hk
    simp only [Re.Lang] at hm
    subst hm
    simp only [Re.run, litRun_append]
    exact hk cs
  | cls c =>
    intro m rest cs k hm hk
    obtain ⟨x, rfl, hx⟩ := hm
    simp only [Re.run, List.singleton_append, hx, if_true]
    exact hk cs
  | star c =>
    intro m rest cs k hm hk
    exact starRun_complete c _ m rest hm (hk cs)
  | plus c =>
    intro m rest cs k hm hk
    obtain ⟨hne, hall⟩ := hm
    cases m with
    | nil => exact absurd rfl hne
    | cons x m =>
      have hx : c.test x = true := hall x (List.mem_cons_self _ _)
      simp only [Re.run, List.cons_append, hx, if_true]
      exact starRun_complete c _ m rest (fun y hy => hall y (List.mem_cons_of_mem _ hy)) (hk cs)
  | seq a b iha ihb =>
    intro m rest cs k hm hk
    obtain ⟨m1, m2, rfl, h1, h2⟩ := hm
    simp only [Re.run, List.append_assoc]
    exact iha m1 (m2 ++ rest) cs _ h1 (fun cs1 => ihb m2 rest cs1 k h2 hk)
  | alt a b iha ihb =>
    intro m rest cs k hm hk
    simp only [Re.run]
    rcases hm with hm | hm
    · have := iha m rest cs k hm hk
      cases ha : a.run (m ++ rest) cs k with
      | some r1 => rfl
      | none => rw [ha] at this; cases this
    · cases ha : a.run (m ++ rest) cs k with
      | some r1 => rfl
      | none => exact ihb m rest cs k hm hk
  | group i a iha =>
    intro m rest cs k hm hk
    simp only [Re.run]
    exact iha m rest cs _ hm (fun cs1 => hk _)

theorem Re.Matches.lang (re : Re) :
    ∀ (m : List Char) (cs cs1 : Caps), re.Matches m cs cs1 → re.Lang m := by
  induction re with
  | str l => intro m cs cs1 h; exact h.1
  | cls c => intro m cs cs1 h; exact h.1
  | star c => intro m cs cs1 h; exact h.1
  | plus c => intro m cs cs1 h; exact h.1
  | seq a b iha ihb =>
    intro m cs cs1 h
    obtain ⟨m1, m2, cs2, hm, h1, h2⟩ := h
    exact ⟨m1, m2, hm, iha _ _ _ h1, ihb _ _ _ h2⟩
  | alt a b iha ihb =>
    intro m cs cs1 h
    rcases h with h | h
    · exact Or.inl (iha _ _ _ h)
    · exact Or.inr (ihb _ _ _ h)
  | group i a iha =>
    intro m cs cs1 h
    obtain ⟨cs2, h1, _⟩ := h
    exact iha _ _ _ h1

/-! ### The fixture pattern -/

theorem any_test_iff (x : Char) : Cls.any.test x = true ↔ x ≠ '\n' := by
  simp [Cls.test]

theorem fixtureRe_matches (m : List Char) (cs1 : Caps)
    (h : re.Matches m (List.replicate (re.numSubexp + 1) []) cs1) :
    ∃ c ph t i, FixtureShape m c ph t i ∧ cs1 = [[], c, ph, t, i] := by
  simp only [re, Re.Matches, Re.numSubexp] at h
  obtain ⟨pre, m2, _, rfl, ⟨hpre, rfl⟩, h⟩ := h
  obtain ⟨_, m3, _, rfl, ⟨rfl, rfl⟩, h⟩ := h
  obtain ⟨c, m4, _, rfl, ⟨_, hc, rfl⟩, h⟩ := h
  obtain ⟨_, m5, _, rfl, ⟨rfl, rfl⟩, h⟩ := h
  obtain ⟨ph, m6, _, rfl, ⟨_, hph, rfl⟩, h⟩ := h
  obtain ⟨_, m7, _, rfl, ⟨rfl, rfl⟩, h⟩ := h
  obtain ⟨t, m8, _, rfl, ⟨_, ⟨ht, rfl⟩, rfl⟩, h⟩ := h
  obtain ⟨_, m9, _, rfl, ⟨rfl, rfl⟩, h⟩ := h
  obtain ⟨_, ⟨_, ds, _, rfl, ⟨rfl, rfl⟩, ⟨⟨hne, hds⟩, rfl⟩⟩, rfl⟩ := h
  have hc1 : c = "mainnet".data ∨ c = "minimal".data := by
    rcases hc with ⟨h1, _⟩ | ⟨h1, _⟩
    · exact Or.inl h1
    · exact Or.inr h1
  have hph1 : ph = "altair".data ∨ ph = "merge".data ∨ ph = "phase0".data := by
    rcases hph with ⟨h1, _⟩ | ⟨h1, _⟩ | ⟨h1, _⟩
    · exact Or.inl h1
    · exact Or.inr (Or.inl h1)
    · exact Or.inr (Or.inr h1)
  refine ⟨c, ph, t, "case_".data ++ ds, ⟨pre, ds, ?_, rfl, hc1, hph1, ?_, ?_, hne, hds⟩, ?_⟩
  · simp only [List.append_assoc]
  · exact fun x hx => (any_test_iff x).1 (hpre x hx)
  · exact fun x hx => (any_test_iff x).1 (ht x hx)
  · rcases hc with ⟨_, h1⟩ | ⟨_, h1⟩ <;> rcases hph with ⟨_, h2⟩ | ⟨_, h2⟩ | ⟨_, h2⟩ <;>
      subst h1 <;> subst h2 <;> rfl

theorem fixtureRe_lang {m c ph t i : List Char} (h : FixtureShape m c ph t i) :
    re.Lang m := by
  obtain ⟨pre, ds, rfl, rfl, hc, hph, hpre, ht, hne, hds⟩ := h
  simp only [re, Re.Lang]
  refine ⟨pre, _, by rw [List.append_assoc, List.append_assoc, List.append_assoc,
    List.append_assoc, List.append_assoc, List.append_assoc, List.append_assoc],
    fun x hx => (any_test_iff x).2 (hpre x hx), ?_⟩
  refine ⟨_, _, rfl, rfl, ?_⟩
  refine ⟨c, _, rfl, hc, ?_⟩
  refine ⟨_, _, rfl, rfl, ?_⟩
  refine ⟨ph, _, rfl, hph, ?_⟩
  refine ⟨_, _, rfl, rfl, ?_⟩
  refine ⟨t, _, rfl, fun x hx => (any_test_iff x).2 (ht x hx), ?_⟩
  refine ⟨_, _, rfl, rfl, ?_⟩
  exact ⟨_, ds, rfl, rfl, hne, hds⟩

theorem matchAt_sound (s : List Char) (cs : Caps) (h : re.matchAt s = some cs) :
    ∃ m rest c ph t i, s = m ++ rest ∧ FixtureShape m c ph t i ∧ cs = [m, c, ph, t, i] := by
  unfold Re.matchAt at h
  obtain ⟨m, rest, cs1, hs, hm, hk⟩ := Re.run_sound re s _ _ cs h
  obtain ⟨c, ph, t, i, hshape, hcs⟩ := fixtureRe_matches m cs1 hm
  refine ⟨m, rest, c, ph, t, i, hs, hshape, ?_⟩
  subst hs hcs
  simpa using hk.symm

theorem matchAt_complete (m rest : List Char) (h : re.Lang m) :
    (re.matchAt (m ++ rest)).isSome = true := by
  unfold Re.matchAt
  exact Re.run_complete re m rest _ _ h (fun _ => rfl)

theorem search_sound (s : List Char) (cs : Caps) (h : re.search s = some cs) :
    ∃ skip m rest c ph t i,
      s = skip ++ (m ++ rest) ∧ FixtureShape m c ph t i ∧ cs = [m, c, ph, t, i] := by
  induction s with
  | nil =>
    obtain ⟨m, rest, c, ph, t, i, hs, hsh, hcs⟩ := matchAt_sound [] cs h
    exact ⟨[], m, rest, c, ph, t, i, hs, hsh, hcs⟩
  | cons x xs ih =>
    unfold Re.search at h
    cases hm : re.matchAt (x :: xs) with
    | some cs1 =>
      rw [hm] at h
      simp only [Option.some.injEq] at h
      subst h
      obtain ⟨m, rest, c, ph, t, i, hs, hsh, hcs⟩ := matchAt_sound _ _ hm
      exact ⟨[], m, rest, c, ph, t, i, hs, hsh, hcs⟩
    | none =>
      rw [hm] at h
      obtain ⟨skip, m, rest, c, ph, t, i, hs, hsh, hcs⟩ := ih h
      exact ⟨x :: skip, m, rest, c, ph, t, i, by simp [hs], hsh, hcs⟩

theorem search_isSome_of_matchAt (re : Re) (skip s : List Char)
    (h : (re.matchAt s).isSome = true) : (re.search (skip ++ s)).isSome = true := by
  induction skip with
  | nil =>
    cases s with
    | nil => exact h
    | cons x xs =>
      simp only [List.nil_append]
      unfold Re.search
      cases hm : re.matchAt (x :: xs) with
      | some cs => rfl
      | none => rw [hm] at h; cases h
  | cons y skip ih =>
    simp only [List.cons_append]
    unfold Re.search
    cases hm : re.matchAt (y :: (skip ++ s)) with
    | some cs => rfl
    | none => exact ih

theorem search_complete (skip m rest : List Char) (h : re.Lang m) :
    (re.search (skip ++ (m ++ rest))).isSome = true :=
  search_isSome_of_matchAt re skip (m ++ rest) (matchAt_complete m rest h)

/-- The result of `FindStringSubmatch` for the fixture pattern: nothing, or the
five strings of an occurrence of the layout inside the input. -/
theorem FindStringSubmatch_cases (s : String) :
    re.FindStringSubmatch s = [] ∨
    ∃ skip m rest c ph t i : List Char,
      s.data = skip ++ (m ++ rest) ∧ FixtureShape m c ph t i ∧
      re.FindStringSubmatch s = [⟨m⟩, ⟨c⟩, ⟨ph⟩, ⟨t⟩, ⟨i⟩] := by
  unfold Re.FindStringSubmatch
  cases h : re.search s.data with
  | none => exact Or.inl rfl
  | some cs =>
    obtain ⟨skip, m, rest, c, ph, t, i, hs, hsh, hcs⟩ := search_sound _ _ h
    refine Or.inr ⟨skip, m, rest, c, ph, t, i, hs, hsh, ?_⟩
    subst hcs
    rfl

/-! ### Leftmost-first choice on a path that ends in a case directory -/

theorem litRun_map {α β : Type} (g : α → β) (k : List Char → Option α) (l s : List Char) :
    litRun (fun rest => (k rest).map g) l s = (litRun k l s).map g := by
  induction l generalizing s with
  | nil => simp [litRun]
  | cons c l ih =>
    cases s with
    | nil => simp [litRun]
    | cons x s =>
      simp only [litRun]
      split
      · exact ih s
      · rfl

theorem starRun_map {α β : Type} (g : α → β) (c : Cls) (k : List Char → Option α)
    (s : List Char) :
    starRun c (fun rest => (k rest).map g) s = (starRun c k s).map g := by
  induction s with
  | nil => simp [starRun]
  | cons x xs ih =>
    unfold starRun
    split
    · rw [ih]
      cases starRun c k xs <;> rfl
    · rfl

theorem Re.run_map {α β : Type} (g : α → β) (re : Re) :
    ∀ (s : List Char) (cs : Caps) (k : List Char → Caps → Option α),
      re.run s cs (fun rest cs1 => (k rest cs1).map g) = (re.run s cs k).map g := by
  induction re with
  | str l =>
    intro s cs k
    simp only [Re.run]
    exact litRun_map g (fun rest => k rest cs) l s
  | cls c =>
    intro s cs k
    cases s with
    | nil => rfl
    | cons x xs =>
      simp only [Re.run]
      split <;> rfl
  | star c =>
    intro s cs k
    simp only [Re.run]
    exact starRun_map g c (fun rest => k rest cs) s
  | plus c =>
    intro s cs k
    cases s with
    | nil => rfl
    | cons x xs =>
      simp only [Re.run]
      split
      · exact starRun_map g c (fun rest => k rest cs) xs
      · rfl
  | seq a b iha ihb =>
    intro s cs k
    simp only [Re.run]
    have hfun : (fun rest cs1 => b.run rest cs1 (fun rest cs1 => (k rest cs1).map g)) =
        (fun rest cs1 => (b.run rest cs1 k).map g) := by
      funext rest cs1
      exact ihb rest cs1 k
    rw [hfun]
    exact iha s cs _
  | alt a b iha ihb =>
    intro s cs k
    simp only [Re.run]
    rw [iha s cs k, ihb s cs k]
    cases a.run s cs k <;> rfl
  | group i a iha =>
    intro s cs k
    simp only [Re.run]
    exact iha s cs _

theorem Re.matchAt_eq_exec (re : Re) (s : List Char) :
    re.matchAt s =
      (re.exec s).map (fun rc => rc.2.set 0 (s.take (s.length - rc.1.length))) := by
  unfold Re.matchAt Re.exec
  exact Re.run_map (fun rc : List Char × Caps => rc.2.set 0 (s.take (s.length - rc.1.length)))
    re s _ (fun rest cs => some (rest, cs))

theorem fixtureRe_exec_greedy (m s : List Char) (r : List Char × Caps)
    (hm : ∀ x ∈ m, x ≠ '\n') (h : re.exec s = some r) :
    re.exec (m ++ s) = some r :=
  starRun_greedy Cls.any _ m s r (fun x hx => (any_test_iff x).2 (hm x hx)) h

theorem fixtureRe_exec_case :
    re.exec "/tests/minimal/phase0/ssz_static/Fork/ssz_random/case_0".data =
      some ([], [[], "minimal".data, "phase0".data, "Fork".data, "case_0".data]) := by
  decide

theorem matchAt_case (p2 : List Char) (hp2 : ∀ x ∈ p2, x ≠ '\n') :
    re.matchAt (p2 ++ "/tests/minimal/phase0/ssz_static/Fork/ssz_random/case_0".data) =
      some [p2 ++ "/tests/minimal/phase0/ssz_static/Fork/ssz_random/case_0".data,
        "minimal".data, "phase0".data, "Fork".data, "case_0".data] := by
  rw [Re.matchAt_eq_exec, fixtureRe_exec_greedy p2 _ _ hp2 fixtureRe_exec_case]
  simp

theorem fixtureShape_no_newline {m c ph t i : List Char} (h : FixtureShape m c ph t i) :
    ∀ x ∈ m, x ≠ '\n' := by
  obtain ⟨pre, ds, rfl, rfl, hc, hph, hpre, ht, _, hds⟩ := h
  have happ : ∀ a b : List Char, (∀ x ∈ a, x ≠ '\n') → (∀ x ∈ b, x ≠ '\n') →
      ∀ x ∈ a ++ b, x ≠ '\n' := by
    intro a b ha hb x hx
    rcases List.mem_append.1 hx with hx | hx
    · exact ha x hx
    · exact hb x hx
  have hcn : ∀ x ∈ c, x ≠ '\n' := by
    rcases hc with rfl | rfl <;> decide
  have hphn : ∀ x ∈ ph, x ≠ '\n' := by
    rcases hph with rfl | rfl | rfl <;> decide
  have hdn : ∀ x ∈ ds, x ≠ '\n' := by
    intro x hx he
    subst he
    exact absurd (hds _ hx) (by decide)
  exact happ _ _ (happ _ _ (happ _ _ (happ _ _ (happ _ _ (happ _ _ (happ _ _ (happ _ _ hpre
    (by decide)) hcn) (by decide)) hphn) (by decide)) ht) (by decide))
    (happ _ _ (by decide) hdn)

theorem search_of_matchAt (re : Re) (s : List Char) (cs : Caps) (h : re.matchAt s = some cs) :
    re.search s = some cs := by
  cases s with
  | nil => exact h
  | cons x xs =>
    unfold Re.search
    rw [h]

theorem search_skip (re : Re) (a s : List Char)
    (h : ∀ a1 a2, a = a1 ++ a2 → a2 ≠ [] → re.matchAt (a2 ++ s) = none) :
    re.search (a ++ s) = re.search s := by
  induction a with
  | nil => rfl
  | cons x a ih =>
    have h0 := h [] (x :: a) rfl (by simp)
    simp only [List.cons_append] at h0
    simp only [List.cons_append]
    rw [Re.search, h0]
    exact ih (fun a1 a2 ha hne => h (x :: a1) a2 (by simp [ha]) hne)

theorem search_none_of_append (x y : List Char) (h : re.search (x ++ y) = none) :
    re.search x = none := by
  cases hx : re.search x with
  | none => rfl
  | some cs =>
    exfalso
    obtain ⟨skip, m, rest, c, ph, t, i, hs, hsh, _⟩ := search_sound x cs hx
    have := search_complete skip m (rest ++ y) (fixtureRe_lang hsh)
    have he : skip ++ (m ++ (rest ++ y)) = x ++ y := by
      rw [hs]
      simp only [List.append_assoc]
    rw [he, h] at this
    cases this

theorem split_last_newline (p : List Char) :
    ∃ a p2, p = a ++ p2 ∧ (∀ x ∈ p2, x ≠ '\n') ∧ (a = [] ∨ ∃ a1, a = a1 ++ ['\n']) := by
  induction p with
  | nil => exact ⟨[], [], rfl, by simp, Or.inl rfl⟩
  | cons x p ih =>
    obtain ⟨a, p2, rfl, hp2, ha⟩ := ih
    rcases ha with rfl | ⟨a1, rfl⟩
    · by_cases hx : x = '\n'
      · subst hx
        exact ⟨['\n'], p2, rfl, hp2, Or.inr ⟨[], rfl⟩⟩
      · refine ⟨[], x :: p2, rfl, ?_, Or.inl rfl⟩
        intro y hy
        rcases List.mem_cons.1 hy with rfl | hy
        · exact hx
        · exact hp2 y hy
    · exact ⟨x :: (a1 ++ ['\n']), p2, rfl, hp2, Or.inr ⟨x :: a1, rfl⟩⟩

theorem append_singleton_split {z : Char} {a a1 a2 : List Char}
    (h : a ++ [z] = a1 ++ a2) (hne : a2 ≠ []) : ∃ a3, a2 = a3 ++ [z] ∧ a = a1 ++ a3 := by
  have h2 : a2 = a2.dropLast ++ [a2.getLast hne] := (List.dropLast_append_getLast hne).symm
  rw [h2, ← List.append_assoc] at h
  have hlen : a.length = (a1 ++ a2.dropLast).length := by
    have := congrArg List.length h
    simp only [List.length_append, List.length_singleton] at this
    simp only [List.length_append]
    omega
  obtain ⟨h3, h4⟩ := List.append_inj h hlen
  refine ⟨a2.dropLast, ?_, h3⟩
  rw [h4]
  exact h2

theorem head_of_newline_free (m : List Char) :
    ∀ (rest u v : List Char), m ++ rest = u ++ '\n' :: v → (∀ x ∈ m, x ≠ '\n') →
      ∃ w, u = m ++ w := by
  induction m with
  | nil => intro rest u v _ _; exact ⟨u, rfl⟩
  | cons x m ih =>
    intro rest u v h hm
    cases u with
    | nil =>
      simp only [List.cons_append, List.nil_append, List.cons.injEq] at h
      exact absurd h.1 (hm x (List.mem_cons_self _ _))
    | cons y u =>
      simp only [List.cons_append, List.cons.injEq] at h
      obtain ⟨w, hw⟩ := ih rest u v h.2 (fun z hz => hm z (List.mem_cons_of_mem _ hz))
      exact ⟨w, by rw [h.1, hw]; rfl⟩

/-- On a path that ends in `/tests/minimal/phase0/ssz_static/Fork/ssz_random/case_0`
and has no occurrence of the layout before the case segment, the search picks
that last occurrence, whatever precedes it. -/
theorem search_case (p : List Char)
    (h : re.search (p ++ "/tests/minimal/phase0/ssz_static/Fork/ssz_random".data) = none) :
    ∃ w, re.search
        (p ++ "/tests/minimal/phase0/ssz_static/Fork/ssz_random/case_0".data) =
      some [w, "minimal".data, "phase0".data, "Fork".data, "case_0".data] := by
  obtain ⟨a, p2, rfl, hp2, ha⟩ := split_last_newline p
  refine ⟨p2 ++ "/tests/minimal/phase0/ssz_static/Fork/ssz_random/case_0".data, ?_⟩
  rw [List.append_assoc, search_skip re a _ ?_]
  · exact search_of_matchAt _ _ _ (matchAt_case p2 hp2)
  · intro a1 a2 hsplit hne
    cases hm : re.matchAt
        (a2 ++ (p2 ++ "/tests/minimal/phase0/ssz_static/Fork/ssz_random/case_0".data)) with
    | none => rfl
    | some cs =>
      exfalso
      rcases ha with rfl | ⟨a0, rfl⟩
      · have : a2 = [] := (List.append_eq_nil.1 hsplit.symm).2
        exact hne this
      · obtain ⟨a3, rfl, rfl⟩ := append_singleton_split hsplit hne
        obtain ⟨m, rest, c, ph, t, i, hs, hsh, _⟩ := matchAt_sound _ _ hm
        have hs1 : m ++ rest = a3 ++ '\n' ::
            (p2 ++ "/tests/minimal/phase0/ssz_static/Fork/ssz_random/case_0".data) := by
          rw [← hs]
          simp only [List.append_assoc, List.singleton_append]
        obtain ⟨w, rfl⟩ := head_of_newline_free m rest a3 _ hs1 (fixtureShape_no_newline hsh)
        have hcomp := search_complete a1 m
          (w ++ '\n' :: (p2 ++ "/tests/minimal/phase0/ssz_static/Fork/ssz_random".data))
          (fixtureRe_lang hsh)
        have he : a1 ++ (m ++ (w ++ '\n' ::
            (p2 ++ "/tests/minimal/phase0/ssz_static/Fork/ssz_random".data))) =
            a1 ++ (m ++ w) ++ ['\n'] ++ p2 ++
              "/tests/minimal/phase0/ssz_static/Fork/ssz_random".data := by
          simp only [List.append_assoc, List.singleton_append, List.cons_append, List.nil_append]
        rw [he, h] at hcomp
        cases hcomp

/-! ### Discovery as a filter over the walk -/

theorem testCaseFromPath_eq (want : List String) (tcs : List TestCase) (c : WalkCall) :
    testCaseFromPath want tcs c = (tcs ++ (candidate want c).toList, none) := by
  cases c with
  | failed p e => simp [testCaseFromPath, candidate]
  | entry p d =>
    simp only [testCaseFromPath, candidate]
    split
    · simp
    · split
      · simp
      · split
        · simp
        · split
          · simp
          · simp

theorem WalkDir_testCaseFromPath (want : List String) (calls : List WalkCall) :
    ∀ tcs : List TestCase,
      WalkDir (testCaseFromPath want) tcs calls =
        (tcs ++ calls.filterMap (candidate want), none) := by
  induction calls with
  | nil => intro tcs; simp [WalkDir]
  | cons c cs ih =>
    intro tcs
    unfold WalkDir
    rw [testCaseFromPath_eq]
    simp only [ih, List.filterMap_cons]
    cases candidate want c <;> simp

/-- The result of `findTestCases`: the test cases of the calls that pass the
callback, in walk order, and a nil error. -/
theorem findTestCases_eq {Val : Type} (env : Env Val) (path : String) (want : List String) :
    findTestCases env path want = ((env.walk path).filterMap (candidate want), none) := by
  unfold findTestCases
  rw [WalkDir_testCaseFromPath]
  simp

theorem mem_findTestCases {Val : Type} (env : Env Val) (path : String) (want : List String)
    (tc : TestCase) :
    tc ∈ (findTestCases env path want).1 ↔ ∃ c ∈ env.walk path, candidate want c = some tc := by
  rw [findTestCases_eq]
  simp [List.mem_filterMap]

theorem candidate_eq_some (want : List String) (c : WalkCall) (tc : TestCase) :
    candidate want c = some tc ↔
      c = .entry tc.path true ∧
      (re.FindStringSubmatch tc.path).length = 5 ∧
      tc.config = (re.FindStringSubmatch tc.path).getD 1 "" ∧
      tc.phase = (re.FindStringSubmatch tc.path).getD 2 "" ∧
      tc.typeName = (re.FindStringSubmatch tc.path).getD 3 "" ∧
      tc.caseId = (re.FindStringSubmatch tc.path).getD 4 "" ∧
      tc.config ≠ "" ∧ tc.phase ≠ "" ∧ tc.typeName ≠ "" ∧ tc.caseId ≠ "" ∧
      tc.typeName ∈ want := by
  cases c with
  | failed p e => simp [testCaseFromPath, candidate]
  | entry p d =>
    obtain ⟨tp, tcfg, tph, tty, tid⟩ := tc
    simp only [testCaseFromPath, candidate]
    split
    · rename_i hd
      refine ⟨fun h => (nomatch h), fun h => ?_⟩
      obtain ⟨h0, _⟩ := h
      simp only [WalkCall.entry.injEq] at h0
      simp [h0.2] at hd
    · rename_i hd
      have hd1 : d = true := by simpa using hd
      subst hd1
      split
      · rename_i hl
        refine ⟨fun h => (nomatch h), fun h => ?_⟩
        obtain ⟨h0, hlen, _⟩ := h
        simp only [WalkCall.entry.injEq, and_true] at h0
        subst h0
        simp [hlen] at hl
      · rename_i hl
        have hl1 : (re.FindStringSubmatch p).length = 5 := by simpa using hl
        split
        · rename_i he
          refine ⟨fun h => (nomatch h), fun h => ?_⟩
          obtain ⟨h0, _, h1, h2, h3, h4, n1, n2, n3, n4, _⟩ := h
          simp only [WalkCall.entry.injEq, and_true] at h0
          subst h0
          subst h1 h2 h3 h4
          exfalso
          simp only [Bool.or_eq_true, beq_iff_eq] at he
          rcases he with ((he | he) | he) | he
          exacts [n1 he, n2 he, n3 he, n4 he]
        · rename_i he
          simp only [Bool.or_eq_true, beq_iff_eq, not_or] at he
          obtain ⟨⟨⟨n1, n2⟩, n3⟩, n4⟩ := he
          split
          · rename_i hw
            refine ⟨fun h => (nomatch h), fun h => ?_⟩
            obtain ⟨h0, _, _, _, h3, _, _, _, _, _, hmem⟩ := h
            simp only [WalkCall.entry.injEq, and_true] at h0
            subst h0
            subst h3
            exfalso
            have hc : want.contains ((re.FindStringSubmatch p).getD 3 "") = true := by
              simpa using hmem
            rw [hc] at hw
            cases hw
          · rename_i hw
            have hmem : (re.FindStringSubmatch p).getD 3 "" ∈ want := by simpa using hw
            simp only [List.nil_append, List.head?_cons, Option.some.injEq, TestCase.mk.injEq,
              WalkCall.entry.injEq, and_true]
            constructor
            · rintro ⟨rfl, rfl, rfl, rfl, rfl⟩
              exact ⟨rfl, hl1, rfl, rfl, rfl, rfl, n1, n2, n3, n4, hmem⟩
            · rintro ⟨rfl, _, rfl, rfl, rfl, rfl, _⟩
              exact ⟨rfl, rfl, rfl, rfl, rfl⟩

theorem mk_ne_empty {l : List Char} (h : l ≠ []) : String.mk l ≠ "" := by
  intro he
  apply h
  have := congrArg String.data he
  simpa using this

/-- Every discovered test case comes from a directory call of the walk whose
path contains an occurrence of the layout; the tags are the captured texts. -/
theorem findTestCases_shape {Val : Type} (env : Env Val) (path : String) (want : List String)
    (tc : TestCase) (h : tc ∈ (findTestCases env path want).1) :
    WalkCall.entry tc.path true ∈ env.walk path ∧ tc.typeName ∈ want ∧ tc.typeName ≠ "" ∧
    ∃ skip m rest : List Char,
      tc.path.data = skip ++ (m ++ rest) ∧
      FixtureShape m tc.config.data tc.phase.data tc.typeName.data tc.caseId.data := by
  obtain ⟨c, hc, hcand⟩ := (mem_findTestCases env path want tc).1 h
  obtain ⟨rfl, hlen, h1, h2, h3, h4, _, _, n3, _, hmem⟩ := (candidate_eq_some want c tc).1 hcand
  refine ⟨hc, hmem, n3, ?_⟩
  rcases FindStringSubmatch_cases tc.path with hnone | ⟨skip, m, rest, c1, ph, t, i, hs, hsh, hparts⟩
  · rw [hnone] at hlen
    cases hlen
  · rw [hparts] at h1 h2 h3 h4
    simp only [List.getD_cons_succ, List.getD_cons_zero] at h1 h2 h3 h4
    refine ⟨skip, m, rest, hs, ?_⟩
    rw [h1, h2, h3, h4]
    exact hsh

theorem exactLayout_last {p : String} (h : ExactLayout p) :
    ∃ x, p.data.getLast? = some x ∧ x.isDigit = true := by
  obtain ⟨pre, c, ph, t, ds, rfl, _, _, hne, hds⟩ := h
  have hne1 : ds.data ≠ [] := by
    intro he
    apply hne
    cases ds
    simp only at he
    subst he
    rfl
  obtain ⟨x, hx⟩ : ∃ x, ds.data.getLast? = some x := by
    cases hl : ds.data.getLast? with
    | none => exact absurd (List.getLast?_eq_none_iff.1 hl) hne1
    | some x => exact ⟨x, rfl⟩
  refine ⟨x, ?_, hds x (List.mem_of_mem_getLast? hx)⟩
  rw [String.data_append, List.getLast?_append, hx]
  rfl

/-! ### The registry -/

/-- C2: `SSZObjectFromName` succeeds exactly on the 35 case labels of its switch
and returns the error "type not found" on every other string, among them
"NotAType" and the empty string. -/
theorem SSZObjectFromName_closed_set (name : String) :
    registryNames.length = 35 ∧ registryNames.Nodup ∧
    ((∃ obj, SSZObjectFromName name = .ok obj) ↔ name ∈ registryNames) ∧
    (SSZObjectFromName name = .error "type not found" ↔ name ∉ registryNames) ∧
    SSZObjectFromName "NotAType" = .error "type not found" ∧
    SSZObjectFromName "" = .error "type not found" := by
  have hin : name ∈ registryNames → ∃ obj, SSZObjectFromName name = .ok obj := by
    intro h
    simp only [registryNames, List.mem_cons, List.mem_singleton, List.not_mem_nil, or_false] at h
    rcases h with h | h | h | h | h | h | h | h | h | h | h | h | h | h | h | h | h | h | h | h
      | h | h | h | h | h | h | h | h | h | h | h | h | h | h | h <;> subst h <;> exact ⟨_, rfl⟩
  have hout : name ∉ registryNames → SSZObjectFromName name = .error "type not found" := by
    intro h
    simp only [registryNames, List.mem_cons, List.mem_singleton, List.not_mem_nil, or_false,
      not_or] at h
    unfold SSZObjectFromName
    split <;> first | rfl | (exfalso; simp only [not_true_eq_false, false_and, and_false] at h)
  refine ⟨by decide, by decide, ⟨?_, hin⟩, ⟨?_, hout⟩, rfl, rfl⟩
  · rintro ⟨obj, ho⟩
    by_contra h
    rw [hout h] at ho
    cases ho
  · intro he h
    obtain ⟨obj, ho⟩ := hin h
    rw [ho] at he
    cases he

/-! ### Discovery -/

/-- C3, as stated, fails: in a walk that holds a directory nested inside a case
directory and a directory named `case_1x`, `findTestCases` returns a test case
for each of them, although neither path has exactly the fixture layout. -/
theorem findTestCases_accepts_inexact_paths :
    (findTestCases (demoEnv inexactWalk noFiles) "/r" ["Fork"]).1 =
      [⟨"/r/tests/minimal/phase0/ssz_static/Fork/ssz_random/case_0",
          "minimal", "phase0", "Fork", "case_0"⟩,
       ⟨"/r/tests/minimal/phase0/ssz_static/Fork/ssz_random/case_0/sub",
          "minimal", "phase0", "Fork", "case_0"⟩,
       ⟨"/r/tests/minimal/phase0/ssz_static/Fork/ssz_random/case_1x",
          "minimal", "phase0", "Fork", "case_1"⟩] ∧
    ¬ ExactLayout "/r/tests/minimal/phase0/ssz_static/Fork/ssz_random/case_0/sub" ∧
    ¬ ExactLayout "/r/tests/minimal/phase0/ssz_static/Fork/ssz_random/case_1x" := by
  refine ⟨by decide, ?_, ?_⟩
  · intro h
    obtain ⟨x, hx, hd⟩ := exactLayout_last h
    have hx1 : x = 'b' := by
      have : some 'b' = some x := hx
      exact (Option.some.inj this).symm
    subst hx1
    exact absurd hd (by decide)
  · intro h
    obtain ⟨x, hx, hd⟩ := exactLayout_last h
    have hx1 : x = 'x' := by
      have : some 'x' = some x := hx
      exact (Option.some.inj this).symm
    subst hx1
    exact absurd hd (by decide)

/-- C3, amended: `findTestCases` yields a test case only for a directory call
of the walk whose path contains the layout
`/tests/config/phase/ssz_static/typeName/ssz_random/caseId`, with `config` a
listed preset, `phase` a listed phase, `typeName` non-empty and free of line
feeds, and `caseId` equal to `case_` followed by one or more decimal digits;
any text may precede the layout and any text may follow the case id. -/
theorem findTestCases_path_contains_layout {Val : Type} (env : Env Val) (path : String)
    (want : List String) (tc : TestCase) (h : tc ∈ (findTestCases env path want).1) :
    WalkCall.entry tc.path true ∈ env.walk path ∧
    ∃ pre rest ds : String,
      tc.path = pre ++ "/tests/" ++ tc.config ++ "/" ++ tc.phase ++ "/ssz_static/" ++
        tc.typeName ++ "/ssz_random/" ++ tc.caseId ++ rest ∧
      (tc.config = "mainnet" ∨ tc.config = "minimal") ∧
      (tc.phase = "phase0" ∨ tc.phase = "altair" ∨ tc.phase = "merge") ∧
      tc.typeName ≠ "" ∧ (∀ x ∈ tc.typeName.data, x ≠ '\n') ∧
      tc.caseId = "case_" ++ ds ∧ ds ≠ "" ∧ ∀ x ∈ ds.data, x.isDigit = true := by
  obtain ⟨hcall, _, hne, skip, m, rest, hp, pre, ds, hm, hi, hc, hph, _, ht, hds, hdig⟩ :=
    findTestCases_shape env path want tc h
  refine ⟨hcall, ⟨skip ++ pre⟩, ⟨rest⟩, ⟨ds⟩, ?_, ?_, ?_, hne, ht, ?_, mk_ne_empty hds, hdig⟩
  · apply String.ext
    simp only [String.data_append]
    rw [hp, hm]
    simp only [List.append_assoc]
  · rcases hc with hc | hc
    · exact Or.inl (String.ext hc)
    · exact Or.inr (String.ext hc)
  · rcases hph with hph | hph | hph
    · exact Or.inr (Or.inl (String.ext hph))
    · exact Or.inr (Or.inr (String.ext hph))
    · exact Or.inl (String.ext hph)
  · apply String.ext
    simp only [String.data_append]
    exact hi

/-- Witness for `findTestCases_path_contains_layout`: the nested directory of
`inexactWalk`. -/
theorem findTestCases_path_contains_layout_witness :
    (⟨"/r/tests/minimal/phase0/ssz_static/Fork/ssz_random/case_0/sub",
        "minimal", "phase0", "Fork", "case_0"⟩ : TestCase) ∈
      (findTestCases (demoEnv inexactWalk noFiles) "/r" ["Fork"]).1 ∧
    (WalkCall.entry "/r/tests/minimal/phase0/ssz_static/Fork/ssz_random/case_0/sub" true ∈
      (demoEnv inexactWalk noFiles).walk "/r" ∧
    ∃ pre rest ds : String,
      "/r/tests/minimal/phase0/ssz_static/Fork/ssz_random/case_0/sub" =
        pre ++ "/tests/" ++ "minimal" ++ "/" ++ "phase0" ++ "/ssz_static/" ++
        "Fork" ++ "/ssz_random/" ++ "case_0" ++ rest ∧
      (("minimal" : String) = "mainnet" ∨ ("minimal" : String) = "minimal") ∧
      (("phase0" : String) = "phase0" ∨ ("phase0" : String) = "altair" ∨
        ("phase0" : String) = "merge") ∧
      ("Fork" : String) ≠ "" ∧ (∀ x ∈ ("Fork" : String).data, x ≠ '\n') ∧
      ("case_0" : String) = "case_" ++ ds ∧ ds ≠ "" ∧ ∀ x ∈ ds.data, x.isDigit = true) :=
  ⟨by decide,
    findTestCases_path_contains_layout (demoEnv inexactWalk noFiles) "/r" ["Fork"]
      ⟨"/r/tests/minimal/phase0/ssz_static/Fork/ssz_random/case_0/sub",
        "minimal", "phase0", "Fork", "case_0"⟩ (by decide)⟩

/-- C6: every test case `findTestCases` returns has non-empty `config`,
`phase`, `typeName` and `caseId`; its `config` is "mainnet" or "minimal", its
`phase` is "phase0", "altair" or "merge", and its `caseId` is "case_" followed
by one or more decimal digits. -/
theorem findTestCases_tags {Val : Type} (env : Env Val) (path : String) (want : List String)
    (tc : TestCase) (h : tc ∈ (findTestCases env path want).1) :
    tc.config ≠ "" ∧ tc.phase ≠ "" ∧ tc.typeName ≠ "" ∧ tc.caseId ≠ "" ∧
    (tc.config = "mainnet" ∨ tc.config = "minimal") ∧
    (tc.phase = "phase0" ∨ tc.phase = "altair" ∨ tc.phase = "merge") ∧
    ∃ ds : String, tc.caseId = "case_" ++ ds ∧ ds ≠ "" ∧ ∀ x ∈ ds.data, x.isDigit = true := by
  obtain ⟨_, _, hne, skip, m, rest, hp, pre, ds, hm, hi, hc, hph, _, ht, hds, hdig⟩ :=
    findTestCases_shape env path want tc h
  have hcfg : tc.config = "mainnet" ∨ tc.config = "minimal" := by
    rcases hc with hc | hc
    · exact Or.inl (String.ext hc)
    · exact Or.inr (String.ext hc)
  have hphase : tc.phase = "phase0" ∨ tc.phase = "altair" ∨ tc.phase = "merge" := by
    rcases hph with hph | hph | hph
    · exact Or.inr (Or.inl (String.ext hph))
    · exact Or.inr (Or.inr (String.ext hph))
    · exact Or.inl (String.ext hph)
  have hid : tc.caseId = "case_" ++ (⟨ds⟩ : String) := by
    apply String.ext
    simp only [String.data_append]
    exact hi
  refine ⟨?_, ?_, hne, ?_, hcfg, hphase, ⟨ds⟩, hid, mk_ne_empty hds, hdig⟩
  · rcases hcfg with h1 | h1 <;> rw [h1] <;> decide
  · rcases hphase with h1 | h1 | h1 <;> rw [h1] <;> decide
  · intro he
    rw [he] at hid
    have h2 : ([] : List Char) = 'c' :: ("ase_".data ++ ds) := congrArg String.data hid
    cases h2

/-- Witness for `findTestCases_tags`: the case directory of `inexactWalk`. -/
theorem findTestCases_tags_witness :
    (⟨"/r/tests/minimal/phase0/ssz_static/Fork/ssz_random/case_0",
        "minimal", "phase0", "Fork", "case_0"⟩ : TestCase) ∈
      (findTestCases (demoEnv inexactWalk noFiles) "/r" ["Fork"]).1 ∧
    (("minimal" : String) ≠ "" ∧ ("phase0" : String) ≠ "" ∧ ("Fork" : String) ≠ "" ∧
    ("case_0" : String) ≠ "" ∧
    (("minimal" : String) = "mainnet" ∨ ("minimal" : String) = "minimal") ∧
    (("phase0" : String) = "phase0" ∨ ("phase0" : String) = "altair" ∨
      ("phase0" : String) = "merge") ∧
    ∃ ds : String, ("case_0" : String) = "case_" ++ ds ∧ ds ≠ "" ∧
      ∀ x ∈ ds.data, x.isDigit = true) :=
  ⟨by decide,
    findTestCases_tags (demoEnv inexactWalk noFiles) "/r" ["Fork"]
      ⟨"/r/tests/minimal/phase0/ssz_static/Fork/ssz_random/case_0",
        "minimal", "phase0", "Fork", "case_0"⟩ (by decide)⟩

theorem FindStringSubmatch_tags_ne (p : String)
    (h : (re.FindStringSubmatch p).length = 5) :
    (re.FindStringSubmatch p).getD 1 "" ≠ "" ∧
    (re.FindStringSubmatch p).getD 2 "" ≠ "" ∧
    (re.FindStringSubmatch p).getD 4 "" ≠ "" := by
  rcases FindStringSubmatch_cases p with hnone | ⟨skip, m, rest, c, ph, t, i, _, hsh, hparts⟩
  · rw [hnone] at h
    cases h
  · obtain ⟨pre, ds, _, hi, hc, hph, _, _, _, _⟩ := hsh
    rw [hparts]
    simp only [List.getD_cons_succ, List.getD_cons_zero]
    refine ⟨?_, ?_, ?_⟩
    · rcases hc with rfl | rfl <;> decide
    · rcases hph with rfl | rfl | rfl <;> decide
    · subst hi
      exact mk_ne_empty (by simp)

/-- C4, as stated, fails: the root `/r/tests/minimal/phase0/ssz_static//ssz_random/case_0`
(the walk reports the root as it was given) matches the pattern with an empty
`typeName`; with the empty string in the wanted set the directory is a member
by type and still is not returned. -/
theorem findTestCases_drops_empty_typeName :
    re.FindStringSubmatch "/r/tests/minimal/phase0/ssz_static//ssz_random/case_0" =
      ["/r/tests/minimal/phase0/ssz_static//ssz_random/case_0", "minimal", "phase0", "",
        "case_0"] ∧
    ("" : String) ∈ [("" : String)] ∧
    findTestCases
      (demoEnv [.entry "/r/tests/minimal/phase0/ssz_static//ssz_random/case_0" true] noFiles)
      "/r/tests/minimal/phase0/ssz_static//ssz_random/case_0" [""] = ([], none) := by
  decide

/-- C4, amended: a directory of the walk whose path matches the pattern appears
in the result of `findTestCases` if and only if the `typeName` the pattern
captured is non-empty and a member of the wanted set; the test case then
carries that `typeName`, and the error returned is nil either way. -/
theorem findTestCases_type_filter {Val : Type} (env : Env Val) (path : String)
    (want : List String) (p : String) (hcall : WalkCall.entry p true ∈ env.walk path)
    (hmatch : (re.FindStringSubmatch p).length = 5) :
    ((∃ tc ∈ (findTestCases env path want).1, tc.path = p) ↔
      ((re.FindStringSubmatch p).getD 3 "" ≠ "" ∧
        (re.FindStringSubmatch p).getD 3 "" ∈ want)) ∧
    (∀ tc ∈ (findTestCases env path want).1, tc.path = p →
      tc.typeName = (re.FindStringSubmatch p).getD 3 "") ∧
    (findTestCases env path want).2 = none := by
  refine ⟨⟨?_, ?_⟩, ?_, ?_⟩
  · rintro ⟨tc, htc, rfl⟩
    obtain ⟨c, _, hcand⟩ := (mem_findTestCases env path want tc).1 htc
    obtain ⟨_, _, _, _, h3, _, _, _, n3, _, hmem⟩ := (candidate_eq_some want c tc).1 hcand
    rw [← h3]
    exact ⟨n3, hmem⟩
  · rintro ⟨n3, hmem⟩
    obtain ⟨n1, n2, n4⟩ := FindStringSubmatch_tags_ne p hmatch
    refine ⟨⟨p, (re.FindStringSubmatch p).getD 1 "",
      (re.FindStringSubmatch p).getD 2 "", (re.FindStringSubmatch p).getD 3 "",
      (re.FindStringSubmatch p).getD 4 ""⟩, ?_, rfl⟩
    refine (mem_findTestCases env path want _).2 ⟨_, hcall, ?_⟩
    exact (candidate_eq_some want _ _).2
      ⟨rfl, hmatch, rfl, rfl, rfl, rfl, n1, n2, n3, n4, hmem⟩
  · intro tc htc hp
    subst hp
    obtain ⟨c, _, hcand⟩ := (mem_findTestCases env path want tc).1 htc
    exact ((candidate_eq_some want c tc).1 hcand).2.2.2.2.1
  · rw [findTestCases_eq]

/-- Witness for `findTestCases_type_filter`: over `twoTypesWalk` with the wanted
set holding "Checkpoint" alone, the `Fork` directory matches the pattern and is
left out, and the result is the `Checkpoint` case. -/
theorem findTestCases_type_filter_witness :
    WalkCall.entry "/r/tests/mainnet/altair/ssz_static/Fork/ssz_random/case_3" true ∈
      (demoEnv twoTypesWalk noFiles).walk "/r" ∧
    (re.FindStringSubmatch
      "/r/tests/mainnet/altair/ssz_static/Fork/ssz_random/case_3").length = 5 ∧
    (((∃ tc ∈ (findTestCases (demoEnv twoTypesWalk noFiles) "/r" ["Checkpoint"]).1,
        tc.path = "/r/tests/mainnet/altair/ssz_static/Fork/ssz_random/case_3") ↔
      ((re.FindStringSubmatch
          "/r/tests/mainnet/altair/ssz_static/Fork/ssz_random/case_3").getD 3 "" ≠ "" ∧
        (re.FindStringSubmatch
          "/r/tests/mainnet/altair/ssz_static/Fork/ssz_random/case_3").getD 3 "" ∈
          ["Checkpoint"])) ∧
    (∀ tc ∈ (findTestCases (demoEnv twoTypesWalk noFiles) "/r" ["Checkpoint"]).1,
      tc.path = "/r/tests/mainnet/altair/ssz_static/Fork/ssz_random/case_3" →
      tc.typeName = (re.FindStringSubmatch
        "/r/tests/mainnet/altair/ssz_static/Fork/ssz_random/case_3").getD 3 "") ∧
    (findTestCases (demoEnv twoTypesWalk noFiles) "/r" ["Checkpoint"]).2 = none) ∧
    findTestCases (demoEnv twoTypesWalk noFiles) "/r" ["Checkpoint"] =
      ([⟨"/r/tests/mainnet/altair/ssz_static/Checkpoint/ssz_random/case_7",
          "mainnet", "altair", "Checkpoint", "case_7"⟩], none) :=
  ⟨by decide, by decide,
    findTestCases_type_filter (demoEnv twoTypesWalk noFiles) "/r" ["Checkpoint"]
      "/r/tests/mainnet/altair/ssz_static/Fork/ssz_random/case_3" (by decide) (by decide),
    by decide⟩

/-! ### The driver -/

theorem verifyCase_typeNotFound {Val : Type} (env : Env Val) (t : TestCase) (n : String)
    (h : verifyCase env t = .error (.typeNotFound n)) :
    ∃ e, SSZObjectFromName t.typeName = .error e := by
  unfold verifyCase at h
  cases hs : SSZObjectFromName t.typeName with
  | error e => exact ⟨e, rfl⟩
  | ok ty =>
    exfalso
    rw [hs] at h
    dsimp only at h
    cases hb : t.MarshaledBytes env with
    | error e =>
      rw [hb] at h
      cases h
    | ok b =>
      rw [hb] at h
      dsimp only at h
      rcases hu : env.UnmarshalSSZ (env.newObject ty) b with ⟨v1, _ | e⟩
      · rw [hu] at h
        dsimp only at h
        cases hm : env.MarshalSSZ v1 with
        | error e1 =>
          rw [hm] at h
          cases h
        | ok bb =>
          rw [hm] at h
          dsimp only at h
          split at h
          · cases h
          · cases hh : env.HashTreeRoot v1 with
            | error e2 =>
              rw [hh] at h
              cases h
            | ok htr =>
              rw [hh] at h
              cases h
      · rw [hu] at h
        cases h

theorem runCases_fatal {Val : Type} (env : Env Val) (tcs : List TestCase) (f : Fatal)
    (h : (runCases env tcs).2 = some f) : ∃ t ∈ tcs, verifyCase env t = .error f := by
  induction tcs with
  | nil => simp [runCases] at h
  | cons t ts ih =>
    unfold runCases at h
    cases hv : verifyCase env t with
    | error g =>
      rw [hv] at h
      simp only [Option.some.injEq] at h
      subst h
      exact ⟨t, List.mem_cons_self _ _, hv⟩
    | ok htr =>
      rw [hv] at h
      obtain ⟨u, hu, hf⟩ := ih h
      exact ⟨u, List.mem_cons_of_mem _ hu, hf⟩

/-- C10: when `SSZObjectFromName t` succeeds, every test case that
`findTestCases` returns for the wanted set holding `t` alone has `typeName = t`, so the lookup
in the loop succeeds for it and neither the loop body nor the whole run takes
the "Couldn't find type" exit. -/
theorem findTestCases_typeName_resolves {Val : Type} (env : Env Val) (path t : String)
    (ty : SSZType) (hok : SSZObjectFromName t = .ok ty) :
    (∀ tc ∈ (findTestCases env path [t]).1,
      tc.typeName = t ∧ SSZObjectFromName tc.typeName = .ok ty ∧
      ∀ n, verifyCase env tc ≠ .error (.typeNotFound n)) ∧
    ∀ n, (main env path t).2 ≠ some (.typeNotFound n) := by
  have hall : ∀ tc ∈ (findTestCases env path [t]).1,
      tc.typeName = t ∧ SSZObjectFromName tc.typeName = .ok ty ∧
      ∀ n, verifyCase env tc ≠ .error (.typeNotFound n) := by
    intro tc htc
    have hmem := (findTestCases_shape env path [t] tc htc).2.1
    have ht : tc.typeName = t := by simpa using hmem
    refine ⟨ht, by rw [ht]; exact hok, ?_⟩
    intro n hn
    obtain ⟨e, he⟩ := verifyCase_typeNotFound env tc n hn
    rw [ht, hok] at he
    cases he
  refine ⟨hall, ?_⟩
  intro n hn
  unfold main at hn
  rw [hok] at hn
  simp only [findTestCases_eq] at hn
  obtain ⟨tc, htc, hf⟩ := runCases_fatal env _ _ hn
  have htc1 : tc ∈ (findTestCases env path [t]).1 := by
    rw [findTestCases_eq]
    exact htc
  exact (hall tc htc1).2.2 n hf

/-- Witness for `findTestCases_typeName_resolves`: the type "Fork" over
`twoTypesWalk`. -/
theorem findTestCases_typeName_resolves_witness :
    SSZObjectFromName "Fork" = .ok SSZType.Fork ∧
    ((∀ tc ∈ (findTestCases (demoEnv twoTypesWalk emptyFixtures) "/r" ["Fork"]).1,
      tc.typeName = "Fork" ∧ SSZObjectFromName tc.typeName = .ok SSZType.Fork ∧
      ∀ n, verifyCase (demoEnv twoTypesWalk emptyFixtures) tc ≠ .error (.typeNotFound n)) ∧
    ∀ n, (main (demoEnv twoTypesWalk emptyFixtures) "/r" "Fork").2 ≠
      some (.typeNotFound n)) ∧
    main (demoEnv twoTypesWalk emptyFixtures) "/r" "Fork" = ([zeroRoot], none) :=
  ⟨rfl,
    findTestCases_typeName_resolves (demoEnv twoTypesWalk emptyFixtures) "/r" "Fork"
      SSZType.Fork rfl,
    by decide⟩

/-- C8, the code at a missing root: the walk reports the root with an error,
the callback swallows it, and `findTestCases` returns the empty list with a nil
error; `main` then ends normally without output. -/
theorem findTestCases_missing_root_nil_error :
    findTestCases
      (demoEnv [.failed "/no/such/dir" "lstat /no/such/dir: no such file or directory"] noFiles)
      "/no/such/dir" ["Fork"] = ([], none) ∧
    main
      (demoEnv [.failed "/no/such/dir" "lstat /no/such/dir: no such file or directory"] noFiles)
      "/no/such/dir" "Fork" = ([], none) := by
  decide

/-- C7, the code at a failed read: the fixture opens, one byte arrives and the
read then fails; `MarshaledBytes` returns what the decompressor makes of that
byte, with a nil error, and the loop body goes on to print a root. -/
theorem MarshaledBytes_drops_read_error :
    failingRead ((demoEnv [] failingRead).pathJoin forkCase.path "serialized.ssz_snappy") =
      .ok ⟨[0], some ("read /r/tests/mainnet/altair/ssz_static/Fork/ssz_random/case_3" ++
        "/serialized.ssz_snappy: input/output error")⟩ ∧
    forkCase.MarshaledBytes (demoEnv [] failingRead) = .ok [] ∧
    verifyCase (demoEnv [] failingRead) forkCase = .ok zeroRoot := by
  refine ⟨rfl, rfl, rfl⟩

/-- C1: for a test case whose type resolves and whose fixture decompresses to
`b`, the loop body prints the root `h` if and only if `UnmarshalSSZ` succeeds on
`b`, `MarshalSSZ` of the decoded object succeeds with bytes equal to `b`, and
`HashTreeRoot` succeeds with `h`.  When the re-encoded bytes differ from `b` the
body takes the "Marshaled bytes do not equal fixture" exit, and a run that
reaches this case prints nothing for it and stops there. -/
theorem verifyCase_prints_iff {Val : Type} (env : Env Val) (t : TestCase) (ty : SSZType)
    (b : Bytes) (hty : SSZObjectFromName t.typeName = .ok ty)
    (hb : t.MarshaledBytes env = .ok b) :
    (∀ h : Root, verifyCase env t = .ok h ↔
      ∃ v bb, env.UnmarshalSSZ (env.newObject ty) b = (v, none) ∧
        env.MarshalSSZ v = .ok bb ∧ bb = b ∧ env.HashTreeRoot v = .ok h) ∧
    (∀ v bb, env.UnmarshalSSZ (env.newObject ty) b = (v, none) →
      env.MarshalSSZ v = .ok bb → bb ≠ b →
      verifyCase env t = .error .mismatch ∧
      ∀ ts, runCases env (t :: ts) = ([], some .mismatch)) := by
  constructor
  · intro h
    unfold verifyCase
    rw [hty]
    simp only [hb]
    rcases hu : env.UnmarshalSSZ (env.newObject ty) b with ⟨v1, _ | e⟩
    · simp only
      cases hm : env.MarshalSSZ v1 with
      | error e1 => simp [hm]
      | ok bb =>
        simp only
        by_cases hbb : b = bb
        · subst hbb
          cases hh : env.HashTreeRoot v1 with
          | error e2 => simp [hm, hh]
          | ok htr => simp [hm, hh]
        · have hbb1 : bb ≠ b := fun he => hbb he.symm
          simp [hbb, hbb1, hm]
    · simp
  · intro v bb hu hm hne
    have hv : verifyCase env t = .error .mismatch := by
      unfold verifyCase
      rw [hty]
      simp only [hb, hu, hm]
      have hbb : b ≠ bb := fun he => hne he.symm
      simp [hbb]
    refine ⟨hv, fun ts => ?_⟩
    unfold runCases
    rw [hv]

/-- Witness for `verifyCase_prints_iff`: the `Fork` case over fixtures that
decompress to the empty string. -/
theorem verifyCase_prints_iff_witness :
    SSZObjectFromName forkCase.typeName = .ok SSZType.Fork ∧
    forkCase.MarshaledBytes (demoEnv [] emptyFixtures) = .ok [] ∧
    (∀ h : Root, verifyCase (demoEnv [] emptyFixtures) forkCase = .ok h ↔
      ∃ v bb, (demoEnv [] emptyFixtures).UnmarshalSSZ
          ((demoEnv [] emptyFixtures).newObject SSZType.Fork) [] = (v, none) ∧
        (demoEnv [] emptyFixtures).MarshalSSZ v = .ok bb ∧ bb = [] ∧
        (demoEnv [] emptyFixtures).HashTreeRoot v = .ok h) ∧
    (∀ v bb, (demoEnv [] emptyFixtures).UnmarshalSSZ
          ((demoEnv [] emptyFixtures).newObject SSZType.Fork) [] = (v, none) →
      (demoEnv [] emptyFixtures).MarshalSSZ v = .ok bb → bb ≠ [] →
      verifyCase (demoEnv [] emptyFixtures) forkCase = .error .mismatch ∧
      ∀ ts, runCases (demoEnv [] emptyFixtures) (forkCase :: ts) = ([], some .mismatch)) :=
  ⟨rfl, rfl, verifyCase_prints_iff (demoEnv [] emptyFixtures) forkCase SSZType.Fork [] rfl rfl⟩

theorem runCases_split {Val : Type} (env : Env Val) (tcs : List TestCase) :
    ∃ pre : List TestCase,
      List.Forall₂ (fun t h => verifyCase env t = .ok h) pre (runCases env tcs).1 ∧
      (((runCases env tcs).2 = none ∧ pre = tcs) ∨
        ∃ t post f, tcs = pre ++ t :: post ∧ verifyCase env t = .error f ∧
          (runCases env tcs).2 = some f) := by
  induction tcs with
  | nil => exact ⟨[], List.Forall₂.nil, Or.inl ⟨rfl, rfl⟩⟩
  | cons t ts ih =>
    cases hv : verifyCase env t with
    | error f =>
      refine ⟨[], ?_, Or.inr ⟨t, ts, f, rfl, hv, ?_⟩⟩
      · unfold runCases
        rw [hv]
        exact List.Forall₂.nil
      · unfold runCases
        rw [hv]
    | ok htr =>
      obtain ⟨pre, hpre, hcase⟩ := ih
      have hr : runCases env (t :: ts) = (htr :: (runCases env ts).1, (runCases env ts).2) := by
        conv_lhs => unfold runCases
        rw [hv]
      refine ⟨t :: pre, ?_, ?_⟩
      · rw [hr]
        exact List.Forall₂.cons hv hpre
      · rw [hr]
        rcases hcase with ⟨hn, rfl⟩ | ⟨u, post, f, rfl, hu, hf⟩
        · exact Or.inl ⟨hn, rfl⟩
        · exact Or.inr ⟨u, post, f, rfl, hu, hf⟩

theorem runCases_none_iff {Val : Type} (env : Env Val) (tcs : List TestCase) :
    (runCases env tcs).2 = none ↔ ∀ t ∈ tcs, ∃ h, verifyCase env t = .ok h := by
  induction tcs with
  | nil => simp [runCases]
  | cons t ts ih =>
    cases hv : verifyCase env t with
    | error f =>
      have hr : runCases env (t :: ts) = ([], some f) := by
        conv_lhs => unfold runCases
        rw [hv]
      rw [hr]
      constructor
      · intro h
        cases h
      · intro h
        obtain ⟨htr, hh⟩ := h t (List.mem_cons_self _ _)
        rw [hv] at hh
        cases hh
    | ok htr =>
      have hr : runCases env (t :: ts) = (htr :: (runCases env ts).1, (runCases env ts).2) := by
        conv_lhs => unfold runCases
        rw [hv]
      rw [hr]
      simp only [ih, List.mem_cons, forall_eq_or_imp]
      constructor
      · intro h
        exact ⟨⟨htr, hv⟩, h⟩
      · intro h
        exact h.2

/-- C9: the loop of `main` takes the cases in list order and stops at the first
one whose body fails.  The roots printed are those of a prefix `pre` of the
list, one per case and in order; either the run ends normally and `pre` is the
whole list, or the case right after `pre` fails and its fatal exit ends the
run.  The run ends normally exactly when every case passes, and the empty list
prints nothing and ends normally. -/
theorem runCases_fail_fast {Val : Type} (env : Env Val) (tcs : List TestCase) :
    (∃ pre : List TestCase,
      List.Forall₂ (fun t h => verifyCase env t = .ok h) pre (runCases env tcs).1 ∧
      (((runCases env tcs).2 = none ∧ pre = tcs ∧ (runCases env tcs).1.length = tcs.length) ∨
        ∃ t post f, tcs = pre ++ t :: post ∧ verifyCase env t = .error f ∧
          (runCases env tcs).2 = some f)) ∧
    ((runCases env tcs).2 = none ↔ ∀ t ∈ tcs, ∃ h, verifyCase env t = .ok h) ∧
    runCases env [] = ([], none) := by
  refine ⟨?_, runCases_none_iff env tcs, rfl⟩
  obtain ⟨pre, hpre, hcase⟩ := runCases_split env tcs
  refine ⟨pre, hpre, ?_⟩
  rcases hcase with ⟨hn, rfl⟩ | h
  · exact Or.inl ⟨hn, rfl, hpre.length_eq.symm⟩
  · exact Or.inr h

/-! ### A tree with a single case directory -/

theorem FindStringSubmatch_eq_nil_iff (x : String) :
    re.FindStringSubmatch x = [] ↔ re.search x.data = none := by
  unfold Re.FindStringSubmatch
  cases h : re.search x.data with
  | none => simp
  | some cs =>
    obtain ⟨skip, m, rest, c, ph, t, i, _, _, hcs⟩ := search_sound _ _ h
    subst hcs
    simp

theorem FindStringSubmatch_nil_of_append (x y : String)
    (h : re.FindStringSubmatch (x ++ y) = []) : re.FindStringSubmatch x = [] := by
  rw [FindStringSubmatch_eq_nil_iff] at h ⊢
  rw [String.data_append] at h
  exact search_none_of_append _ _ h

theorem FindStringSubmatch_nil_chain (p a b c : String)
    (h : re.FindStringSubmatch (p ++ c) = []) (hc : c = "/" ++ a ++ b) :
    re.FindStringSubmatch (p ++ "/" ++ a) = [] := by
  apply FindStringSubmatch_nil_of_append _ b
  have he : p ++ "/" ++ a ++ b = p ++ c := by
    subst hc
    apply String.ext
    simp only [String.data_append, List.append_assoc]
  rw [he]
  exact h

theorem candidate_entry_nomatch (want : List String) (path : String) (d : Bool)
    (h : re.FindStringSubmatch path = []) : candidate want (.entry path d) = none := by
  cases hc : candidate want (.entry path d) with
  | none => rfl
  | some tc =>
    exfalso
    obtain ⟨he, hlen, _⟩ := (candidate_eq_some want _ tc).1 hc
    simp only [WalkCall.entry.injEq] at he
    rw [← he.1, h] at hlen
    cases hlen

theorem candidate_file (want : List String) (path : String) :
    candidate want (.entry path false) = none := by
  simp [candidate, testCaseFromPath]

theorem FindStringSubmatch_case (p : String)
    (h : re.FindStringSubmatch
      (p ++ "/tests/minimal/phase0/ssz_static/Fork/ssz_random") = []) :
    ∃ w, re.FindStringSubmatch
        (p ++ "/" ++ "tests/minimal/phase0/ssz_static/Fork/ssz_random/case_0") =
      [w, "minimal", "phase0", "Fork", "case_0"] := by
  rw [FindStringSubmatch_eq_nil_iff, String.data_append] at h
  obtain ⟨w, hw⟩ := search_case p.data h
  refine ⟨⟨w⟩, ?_⟩
  unfold Re.FindStringSubmatch
  have hd : (p ++ "/" ++ "tests/minimal/phase0/ssz_static/Fork/ssz_random/case_0").data =
      p.data ++ "/tests/minimal/phase0/ssz_static/Fork/ssz_random/case_0".data := by
    simp only [String.data_append, List.append_assoc]
    rfl
  rw [hd, hw]
  rfl

/-- C5, as stated, fails for the relative root: walking `.` reports the case
directory as `tests/minimal/phase0/ssz_static/Fork/ssz_random/case_0`, which the
pattern does not match because no separator precedes `tests`; `findTestCases`
returns no test case. -/
theorem findTestCases_relative_root_finds_nothing :
    singleCaseWalk "." "" =
      [.entry "." true,
       .entry "tests" true,
       .entry "tests/minimal" true,
       .entry "tests/minimal/phase0" true,
       .entry "tests/minimal/phase0/ssz_static" true,
       .entry "tests/minimal/phase0/ssz_static/Fork" true,
       .entry "tests/minimal/phase0/ssz_static/Fork/ssz_random" true,
       .entry "tests/minimal/phase0/ssz_static/Fork/ssz_random/case_0" true,
       .entry "tests/minimal/phase0/ssz_static/Fork/ssz_random/case_0/serialized.ssz_snappy"
         false] ∧
    re.FindStringSubmatch "tests/minimal/phase0/ssz_static/Fork/ssz_random/case_0" = [] ∧
    findTestCases (demoEnv (singleCaseWalk "." "") noFiles) "." ["Fork"] = ([], none) := by
  decide

/-- C5, amended: for a root `r` under which the walked paths are `p/tests/…`
(the cleaned root `p` and a separator precede `tests`), if the tree holds the
single case directory `p/tests/minimal/phase0/ssz_static/Fork/ssz_random/case_0`
and neither the root as given nor the chain of directories above the case
directory matches the pattern, `findTestCases` for the wanted set holding "Fork" alone returns exactly one
test case, with config "minimal", phase "phase0", typeName "Fork" and caseId
"case_0", and a nil error. -/
theorem findTestCases_single_case {Val : Type} (env : Env Val) (r p : String)
    (hwalk : env.walk r = singleCaseWalk r (p ++ "/"))
    (hroot : re.FindStringSubmatch r = [])
    (hchain : re.FindStringSubmatch
      (p ++ "/tests/minimal/phase0/ssz_static/Fork/ssz_random") = []) :
    findTestCases env r ["Fork"] =
      ([⟨p ++ "/" ++ "tests/minimal/phase0/ssz_static/Fork/ssz_random/case_0",
          "minimal", "phase0", "Fork", "case_0"⟩], none) := by
  obtain ⟨w, hw⟩ := FindStringSubmatch_case p hchain
  have hcase : candidate ["Fork"]
      (.entry (p ++ "/" ++ "tests/minimal/phase0/ssz_static/Fork/ssz_random/case_0") true) =
      some ⟨p ++ "/" ++ "tests/minimal/phase0/ssz_static/Fork/ssz_random/case_0",
        "minimal", "phase0", "Fork", "case_0"⟩ := by
    refine (candidate_eq_some _ _ _).2 ?_
    simp only [hw]
    exact ⟨trivial, rfl, rfl, rfl, rfl, rfl, by decide, by decide, by decide, by decide,
      by decide⟩
  rw [findTestCases_eq, hwalk]
  simp only [singleCaseWalk, List.filterMap_cons, List.filterMap_nil,
    candidate_entry_nomatch _ r true hroot,
    candidate_entry_nomatch _ _ true
      (FindStringSubmatch_nil_chain p "tests" "/minimal/phase0/ssz_static/Fork/ssz_random" _
        hchain rfl),
    candidate_entry_nomatch _ _ true
      (FindStringSubmatch_nil_chain p "tests/minimal" "/phase0/ssz_static/Fork/ssz_random" _
        hchain rfl),
    candidate_entry_nomatch _ _ true
      (FindStringSubmatch_nil_chain p "tests/minimal/phase0" "/ssz_static/Fork/ssz_random" _
        hchain rfl),
    candidate_entry_nomatch _ _ true
      (FindStringSubmatch_nil_chain p "tests/minimal/phase0/ssz_static" "/Fork/ssz_random" _
        hchain rfl),
    candidate_entry_nomatch _ _ true
      (FindStringSubmatch_nil_chain p "tests/minimal/phase0/ssz_static/Fork" "/ssz_random" _
        hchain rfl),
    candidate_entry_nomatch _ _ true
      (FindStringSubmatch_nil_chain p "tests/minimal/phase0/ssz_static/Fork/ssz_random" "" _
        hchain rfl),
    candidate_file, hcase]

/-- Witness for `findTestCases_single_case`: the root `/data`. -/
theorem findTestCases_single_case_witness :
    (demoEnv (singleCaseWalk "/data" ("/data" ++ "/")) noFiles).walk "/data" =
      singleCaseWalk "/data" ("/data" ++ "/") ∧
    re.FindStringSubmatch "/data" = [] ∧
    re.FindStringSubmatch
      ("/data" ++ "/tests/minimal/phase0/ssz_static/Fork/ssz_random") = [] ∧
    findTestCases (demoEnv (singleCaseWalk "/data" ("/data" ++ "/")) noFiles) "/data"
        ["Fork"] =
      ([⟨"/data" ++ "/" ++ "tests/minimal/phase0/ssz_static/Fork/ssz_random/case_0",
          "minimal", "phase0", "Fork", "case_0"⟩], none) :=
  ⟨rfl, by decide, by decide,
    findTestCases_single_case (demoEnv (singleCaseWalk "/data" ("/data" ++ "/")) noFiles)
      "/data" "/data" rfl (by decide) (by decide)⟩

end SszCli
